import Mathlib

/-!
StakePool: the `extractor` contract.

A shallow embedding of `src/include/extractor.hpp`, `src/src/extractor.cpp` and the
parts of `src/include/atomicassets-interface.hpp` they read.

Conventions of the embedding.

* `name`, `symbol`, `uint64_t` values are natural numbers; `name("")` is `0`.
  Arithmetic on `uint64_t` is taken modulo `2^64`, arithmetic on `int64_t`
  (the `amount` of an `asset`) is wrapped into `[-2^63, 2^63)`.
* A `multi_index` table is the list of its rows. `find` returns the first row with
  the primary key, `emplace` adds a row at the end, `modify` and `erase` act on the
  row the iterator points to (the first row with the key). The host refuses an
  `emplace` whose primary key is already in the table and aborts the transaction:
  `table_emplace_checked`, used for `pool.emplace` in `stake`. In `consume_counter` and
  `internal_add_balance` the `emplace` is reached only after `find` returned `end()`,
  so there it cannot be refused and is the plain `table_emplace`.
* A read through an iterator that equals `end()` yields a value the source does not
  determine: the field `end_transferable` of the registry snapshot gives it, and
  every theorem holds for all its values.
* An inline action sent with `action(...).send()` is appended to the field `sent` of
  the state.
* `check(cond, msg)` aborts the whole transaction: an action is a function into
  `Except Err`, and `commit` gives the state the chain keeps.
* `require_auth` belongs to the host and is not modelled. The singleton `config` is
  taken to exist, so `config.get()` does not fail.
-/

namespace StakePool

/-! ## Basic types -/

/-- The `eosio::name` type: a 64-bit value. -/
abbrev name := Nat

/-- The `eosio::symbol` type: a 64-bit value (code and precision). -/
abbrev symbol := Nat

/-- The `eosio::checksum256` type: a 256-bit digest. -/
abbrev checksum256 := Nat

/-- The value of `name("")`. -/
def empty_name : name := 0

/-- The value of `name("stake")` in the base-32 encoding of `eosio::name`. -/
def stake_name : name := 14289082690274590720

/-- Wrap-around of `uint64_t` arithmetic. -/
def wrap_u64 (x : Nat) : Nat := x % 2 ^ 64

/-- Wrap-around of `int64_t` arithmetic into `[-2^63, 2^63)`. -/
def wrap_i64 (x : Int) : Int := (x + 2 ^ 63) % 2 ^ 64 - 2 ^ 63

/-- The `eosio::asset` type: an `int64_t` amount and a symbol. -/
structure asset where
  amount : Int
  symbol : symbol
  deriving DecidableEq, Repr

/-- The failures of the contract. Each but the last is a `check` of the source (the
spec's name for it is the constructor, the source's messages are `Err.messages`);
`PrimaryKeyInUse` is the host's abort of an `emplace` whose primary key is already in
the table. -/
inductive Err where
  | EmptyInput
  | DuplicateAsset
  | NotOwned (asset_id : Nat)
  | NotTransferable (asset_id : Nat)
  | MixedCollection
  | DuplicateStake
  | StakeStillValid
  | NotFound
  | NoBalanceRow
  | SymbolNotFound
  | InsufficientBalance
  | NonPositiveQuantity
  | UnsupportedToken
  | InvalidMemo
  | NegativeAmount
  | PrimaryKeyInUse
  deriving DecidableEq, Repr

/-- The messages the source passes to `check` / `require_find` for each failure:
`UnsupportedToken` is raised by two checks with different messages (lines 268 and
325), the host's abort has no message in the source. -/
def Err.messages : Err → List String
  | .EmptyInput => ["asset_ids needs to contain at least one id"]
  | .DuplicateAsset => ["The asset_ids must not contain duplicates"]
  | .NotOwned i =>
    ["The specified account does not own at least one of the assets - " ++ toString i]
  | .NotTransferable i =>
    ["At least one of the assets is not transferable - " ++ toString i]
  | .MixedCollection => ["The specified asset ids must all belong to the same collection"]
  | .DuplicateStake =>
    ["You have already staked these assets. You can cancel the stake using the cancelstake action."]
  | .StakeStillValid =>
    ["The stake is not invalid, therefore the authorization of the staker is needed to cancel it"]
  | .NotFound => ["No stake with this stake_id exists"]
  | .NoBalanceRow => ["The specified account does not have a balance table row"]
  | .SymbolNotFound =>
    ["The specified account does not have a balance for the symbol specified in the quantity"]
  | .InsufficientBalance =>
    ["The specified account's balance is lower than the specified quantity"]
  | .NonPositiveQuantity => ["The quantity to withdraw must be positive"]
  | .UnsupportedToken =>
    ["The transferred token is not supported", "The specified token symbol is not supported"]
  | .InvalidMemo => ["invalid memo"]
  | .NegativeAmount => ["Can't add negative balances"]
  | .PrimaryKeyInUse => []

/-- The state the chain keeps after a transaction: the new state when the action
returned, the old state when a `check` failed. -/
def commit {σ : Type} (before : σ) (r : Except Err σ) : σ :=
  match r with
  | .ok after => after
  | .error _ => before

/-! ## Tables -/

/-- The row `multi_index::find(k)` points to: the first row with primary key `k`. -/
def table_find {α κ : Type} [DecidableEq κ] (pk : α → κ) (k : κ) (t : List α) : Option α :=
  t.find? (fun r => pk r = k)

/-- The table after `multi_index::emplace`. -/
def table_emplace {α : Type} (t : List α) (r : α) : List α := t ++ [r]

/-- The call `multi_index::emplace` with the host's check: the transaction is aborted
when the table already has a row with the primary key of the new row. -/
def table_emplace_checked {α κ : Type} [DecidableEq κ] (pk : α → κ) (t : List α) (r : α) :
    Except Err (List α) :=
  match table_find pk (pk r) t with
  | some _ => .error .PrimaryKeyInUse
  | none => .ok (table_emplace t r)

/-- The table after `multi_index::modify` on the row with primary key `k`. -/
def table_modify {α κ : Type} [DecidableEq κ] (pk : α → κ) (k : κ) (f : α → α) :
    List α → List α
  | [] => []
  | r :: rs => if pk r = k then f r :: rs else r :: table_modify pk k f rs

/-- The table after `multi_index::erase` on the row with primary key `k`. -/
def table_erase {α κ : Type} [DecidableEq κ] (pk : α → κ) (k : κ) : List α → List α
  | [] => []
  | r :: rs => if pk r = k then rs else r :: table_erase pk k rs

/-! ## Stake content hasher (`extractor.hpp`, lines 16-27) -/

/-- The eight bytes of a `uint64_t` in memory (little-endian). -/
def u64_bytes (x : Nat) : List Nat :=
  (List.range 8).map (fun i => x / 256 ^ i % 256)

/-- The byte image `(char *) asset_ids_array` of an array of `uint64_t`. -/
def array_bytes (a : List Nat) : List Nat :=
  a.flatMap u64_bytes

/-- The function `hash_asset_ids`: copy, `std::sort`, then `eosio::sha256` of the
bytes of the array. The digest `sha256` is an intrinsic of the host and is a
parameter. -/
def hash_asset_ids (sha256 : List Nat → checksum256) (asset_ids : List Nat) : checksum256 :=
  let asset_ids_array := asset_ids.insertionSort (· ≤ ·)
  sha256 (array_bytes asset_ids_array)

/-- A digest that can be evaluated, for running the model on concrete inputs:
the bytes read as a base-256 numeral. It is not the SHA-256 function. -/
def numeral_digest (bytes : List Nat) : checksum256 :=
  bytes.foldl (fun acc b => acc * 256 + b) 0

/-! ## Counter service (`extractor.cpp`, lines 157-173) -/

/-- A row of the `counters` table. -/
structure counters_s where
  counter_name : name
  counter_value : Nat
  deriving DecidableEq, Repr

/-- The function `extractor::consume_counter`: the value returned and the table
afterwards. -/
def consume_counter (counters : List counters_s) (counter_name : name) :
    Nat × List counters_s :=
  match table_find counters_s.counter_name counter_name counters with
  | none =>
    (1, table_emplace counters { counter_name := counter_name, counter_value := 2 })
  | some counter_itr =>
    (counter_itr.counter_value,
      table_modify counters_s.counter_name counter_name
        (fun c => { c with counter_value := wrap_u64 (c.counter_value + 1) }) counters)

/-- Calling `consume_counter counter_name` `n` times in sequence: the values
returned, in order, and the table afterwards. -/
def consume_counter_times (counter_name : name) : Nat → List counters_s → List Nat × List counters_s
  | 0, counters => ([], counters)
  | n + 1, counters =>
    let (value, counters1) := consume_counter counters counter_name
    let (values, counters2) := consume_counter_times counter_name n counters1
    (value :: values, counters2)

/-- The stored value of a counter, when it has a row. -/
def counter_value (counters : List counters_s) (counter_name : name) : Option Nat :=
  (table_find counters_s.counter_name counter_name counters).map counters_s.counter_value

/-! ## The asset registry (`atomicassets-interface.hpp`) -/

/-- A row of the registry's `assets` table (scope: the owner), with the fields the
contract reads. -/
structure assets_s where
  asset_id : Nat
  collection_name : name
  template_id : Int
  deriving DecidableEq, Repr

/-- A row of the registry's `templates` table (scope: the collection), with the
fields the contract reads. -/
structure templates_s where
  template_id : Int
  transferable : Bool
  deriving DecidableEq, Repr

/-- A snapshot of the registry: `get_assets acc` is the table of the assets held by
`acc`, `get_templates c` the table of the templates of collection `c`.
`end_transferable c t` is the value that `template_itr->transferable` yields when the
table of `c` has no template `t`: the source reads through the iterator without
comparing it with `end()`, and nothing in the source determines the value read. -/
structure atomicassets where
  get_assets : name → List assets_s
  get_templates : name → List templates_s
  end_transferable : name → Int → Bool

/-! ## Asset ownership validator (`extractor.cpp`, lines 114-150) -/

/-- The function `std::adjacent_find`: the position of the first element equal to
its successor, `none` for `end()`. -/
def adjacent_find : List Nat → Option Nat
  | a :: b :: rest => if a = b then some 0 else (adjacent_find (b :: rest)).map (· + 1)
  | _ => none

/-- Line 137: the value of `template_itr->transferable` after the `find` of line 136;
no comparison with `end()` is made before the read. -/
def template_transferable (aa : atomicassets) (asset_itr : assets_s) : Bool :=
  match table_find templates_s.template_id asset_itr.template_id
      (aa.get_templates asset_itr.collection_name) with
  | none => aa.end_transferable asset_itr.collection_name asset_itr.template_id
  | some template_itr => template_itr.transferable

/-- Lines 134-139: the transferability check of one asset. -/
def check_transferable (aa : atomicassets) (asset_itr : assets_s) (asset_id : Nat) :
    Except Err Unit :=
  if asset_itr.template_id ≠ -1 then
    if template_transferable aa asset_itr then .ok ()
    else .error (.NotTransferable asset_id)
  else .ok ()

/-- Lines 141-146: the update of `assets_collection_name` for one asset. -/
def check_collection (assets_collection_name : name) (asset_itr : assets_s) :
    Except Err name :=
  if assets_collection_name = empty_name then .ok asset_itr.collection_name
  else if assets_collection_name = asset_itr.collection_name then .ok assets_collection_name
  else .error .MixedCollection

/-- Lines 129-147: the loop over `asset_ids`, from the current value of
`assets_collection_name`. -/
def check_assets_loop (aa : atomicassets) (owner_assets : List assets_s) :
    List Nat → name → Except Err name
  | [], assets_collection_name => .ok assets_collection_name
  | asset_id :: rest, assets_collection_name =>
    match table_find assets_s.asset_id asset_id owner_assets with
    | none => .error (.NotOwned asset_id)
    | some asset_itr =>
      match check_transferable aa asset_itr asset_id with
      | .error e => .error e
      | .ok () =>
        match check_collection assets_collection_name asset_itr with
        | .error e => .error e
        | .ok next => check_assets_loop aa owner_assets rest next

/-- The function `extractor::get_collection_and_check_assets`. -/
def get_collection_and_check_assets (aa : atomicassets) (owner : name)
    (asset_ids : List Nat) : Except Err name :=
  if asset_ids.length = 0 then .error .EmptyInput
  else
    let asset_ids_copy := asset_ids.insertionSort (· ≤ ·)
    if adjacent_find asset_ids_copy ≠ none then .error .DuplicateAsset
    else check_assets_loop aa (aa.get_assets owner) asset_ids empty_name

/-! ## Contract state -/

/-- The struct `TOKEN`. -/
structure TOKEN where
  token_contract : name
  token_symbol : symbol
  deriving DecidableEq, Repr

/-- A row of the `balances` table. -/
structure balances_s where
  owner : name
  quantities : List asset
  deriving DecidableEq, Repr

/-- A row of the `stakes` table. `offer_id` is `none` while no code has written it
(`stake` leaves it unwritten). -/
structure stake_s where
  stake_id : Nat
  owner : name
  asset_ids : List Nat
  offer_id : Option Int
  collection_name : name
  deriving DecidableEq, Repr

/-- The member function `stake_s::asset_ids_hash`. -/
def stake_s.asset_ids_hash (sha256 : List Nat → checksum256) (s : stake_s) : checksum256 :=
  hash_asset_ids sha256 s.asset_ids

/-- The singleton `config_s`; `supported_tokens` is the list the functions of
`extractor.cpp` read from it. -/
structure config_s where
  version : String
  stake_counter : Nat
  minimum_claim_duration : Nat
  minimum_calc_duaration : Nat
  apoc_token : TOKEN
  atomicassets_account : name
  supported_tokens : List TOKEN
  deriving DecidableEq, Repr

/-- An inline action sent with `action(...).send()`. -/
inductive inline_action where
  | lognewstake (stake_id : Nat) (owner : name) (asset_ids : List Nat) (collection_name : name)
  | transfer (token_contract : name) (sender : name) (recipient : name) (quantity : asset)
      (memo : String)
  deriving DecidableEq, Repr

/-- The persistent tables of the contract and the inline actions sent so far. -/
structure extractor where
  pool : List stake_s
  balances : List balances_s
  counters : List counters_s
  config : config_s
  sent : List inline_action
  deriving DecidableEq, Repr

/-! ## Staking pool (`extractor.cpp`, lines 183-255) -/

/-- The entries of the secondary index `assetidshash` that the loop of `stake`
visits: those whose key equals `asset_ids_hash`. -/
def stakes_by_hash (sha256 : List Nat → checksum256) (asset_ids_hash : checksum256)
    (pool : List stake_s) : List stake_s :=
  pool.filter (fun s => s.asset_ids_hash sha256 = asset_ids_hash)

/-- Lines 196-205: the loop over the stakes with the same hash. -/
def check_not_staked (owner : name) : List stake_s → Except Err Unit
  | [] => .ok ()
  | stake_itr :: rest =>
    if stake_itr.owner ≠ owner then check_not_staked owner rest
    else .error .DuplicateStake

/-- The action `extractor::stake`. -/
def stake (sha256 : List Nat → checksum256) (aa : atomicassets) (st : extractor)
    (owner : name) (asset_ids : List Nat) : Except Err extractor :=
  match get_collection_and_check_assets aa owner asset_ids with
  | .error e => .error e
  | .ok assets_collection_name =>
    let asset_ids_hash := hash_asset_ids sha256 asset_ids
    match check_not_staked owner (stakes_by_hash sha256 asset_ids_hash st.pool) with
    | .error e => .error e
    | .ok () =>
      let (stake_id, counters) := consume_counter st.counters stake_name
      match table_emplace_checked stake_s.stake_id st.pool
          { stake_id := stake_id, owner := owner, asset_ids := asset_ids, offer_id := none,
            collection_name := assets_collection_name } with
      | .error e => .error e
      | .ok pool =>
        .ok { st with
          counters := counters
          pool := pool
          sent := st.sent ++
            [.lognewstake stake_id owner asset_ids assets_collection_name] }

/-- Lines 246-251: the loop that sets `is_stake_invalid`. -/
def is_stake_invalid (staker_assets : List assets_s) : List Nat → Bool
  | [] => false
  | asset_id :: rest =>
    if (table_find assets_s.asset_id asset_id staker_assets).isSome then true
    else is_stake_invalid staker_assets rest

/-- The action `extractor::unstake`. -/
def unstake (aa : atomicassets) (st : extractor) (stake_id : Nat) : Except Err extractor :=
  match table_find stake_s.stake_id stake_id st.pool with
  | none => .error .NotFound
  | some stake_itr =>
    let staker_assets := aa.get_assets stake_itr.owner
    if is_stake_invalid staker_assets stake_itr.asset_ids then
      .ok { st with pool := table_erase stake_s.stake_id stake_id st.pool }
    else .error .StakeStillValid

/-! ## Balance ledger (`extractor.cpp`, lines 398-481) -/

/-- Lines 422-430: the loop of `internal_add_balance` over `quantities`; the second
component is `found_token`. -/
def add_balance_loop (quantity : asset) : List asset → List asset × Bool
  | [] => ([], false)
  | token :: rest =>
    if token.symbol = quantity.symbol then
      ({ token with amount := wrap_i64 (token.amount + quantity.amount) } :: rest, true)
    else
      let (rest1, found_token) := add_balance_loop quantity rest
      (token :: rest1, found_token)

/-- The function `extractor::internal_add_balance` on the `balances` table. -/
def internal_add_balance (balances : List balances_s) (owner : name) (quantity : asset) :
    Except Err (List balances_s) :=
  if quantity.amount = 0 then .ok balances
  else if ¬ quantity.amount > 0 then .error .NegativeAmount
  else
    match table_find balances_s.owner owner balances with
    | none => .ok (table_emplace balances { owner := owner, quantities := [quantity] })
    | some balance_itr =>
      let (quantities, found_token) := add_balance_loop quantity balance_itr.quantities
      let quantities := if ¬ found_token then quantities ++ [quantity] else quantities
      .ok (table_modify balances_s.owner owner
        (fun b => { b with quantities := quantities }) balances)

/-- Lines 458-469: the loop of `internal_decrease_balance` over `quantities`; the
second component is `found_token`. -/
def decrease_balance_loop (quantity : asset) : List asset → Except Err (List asset × Bool)
  | [] => .ok ([], false)
  | itr :: rest =>
    if itr.symbol = quantity.symbol then
      if itr.amount ≥ quantity.amount then
        let amount := wrap_i64 (itr.amount - quantity.amount)
        if amount = 0 then .ok (rest, true)
        else .ok ({ itr with amount := amount } :: rest, true)
      else .error .InsufficientBalance
    else
      match decrease_balance_loop quantity rest with
      | .error e => .error e
      | .ok (rest1, found_token) => .ok (itr :: rest1, found_token)

/-- The function `extractor::internal_decrease_balance` on the `balances` table. -/
def internal_decrease_balance (balances : List balances_s) (owner : name) (quantity : asset) :
    Except Err (List balances_s) :=
  match table_find balances_s.owner owner balances with
  | none => .error .NoBalanceRow
  | some balance_itr =>
    match decrease_balance_loop quantity balance_itr.quantities with
    | .error e => .error e
    | .ok (quantities, found_token) =>
      if ¬ found_token then .error .SymbolNotFound
      else if quantities.length > 0 then
        .ok (table_modify balances_s.owner owner
          (fun b => { b with quantities := quantities }) balances)
      else .ok (table_erase balances_s.owner owner balances)

/-- Credit followed by debit of the same quantity. -/
def credit_then_debit (balances : List balances_s) (owner : name) (quantity : asset) :
    Except Err (List balances_s) :=
  match internal_add_balance balances owner quantity with
  | .error e => .error e
  | .ok balances1 => internal_decrease_balance balances1 owner quantity

/-- The entry of a row for a symbol: the first entry with that symbol, the one the
loops of the ledger reach. -/
def entry_for (quantities : List asset) (s : symbol) : Option asset :=
  quantities.find? (fun e => e.symbol = s)

/-- The balance invariant: every row is non-empty, every entry has a positive
amount, and no two entries of one row share a symbol. -/
def balance_inv (balances : List balances_s) : Prop :=
  ∀ row ∈ balances, row.quantities ≠ [] ∧ (∀ e ∈ row.quantities, 0 < e.amount) ∧
    (row.quantities.map asset.symbol).Nodup

instance (balances : List balances_s) : Decidable (balance_inv balances) := by
  unfold balance_inv; infer_instance

deriving instance DecidableEq for Except

/-! ## Concrete inputs -/

/-- The value of `name("alice")`. -/
def alice : name := 3773036822876127232

/-- The value of `name("heroes")`, a collection name. -/
def heroes : name := 7687439367563902976

/-- The value of `symbol("TOK", 4)`. -/
def TOK : symbol := 1263490052

/-- A registry in which `alice` holds asset `1` of the collection named `""` and
asset `2` of the collection `heroes`, neither with a template. -/
def registry_empty_collection : atomicassets where
  get_assets := fun acc =>
    if acc = alice then
      [{ asset_id := 1, collection_name := empty_name, template_id := -1 },
       { asset_id := 2, collection_name := heroes, template_id := -1 }]
    else []
  get_templates := fun _ => []
  end_transferable := fun _ _ => false

/-- A registry in which `alice` holds asset `3` of the collection `heroes`, whose
template `9` is not transferable. -/
def registry_not_transferable : atomicassets where
  get_assets := fun acc =>
    if acc = alice then [{ asset_id := 3, collection_name := heroes, template_id := 9 }]
    else []
  get_templates := fun c =>
    if c = heroes then [{ template_id := 9, transferable := false }] else []
  end_transferable := fun _ _ => false

/-- A registry in which `alice` holds the assets `5` and `9` of the collection
`heroes`, with the transferable template `4`. -/
def registry_holding : atomicassets where
  get_assets := fun acc =>
    if acc = alice then
      [{ asset_id := 5, collection_name := heroes, template_id := 4 },
       { asset_id := 9, collection_name := heroes, template_id := 4 }]
    else []
  get_templates := fun c =>
    if c = heroes then [{ template_id := 4, transferable := true }] else []
  end_transferable := fun _ _ => false

/-- A registry in which nobody holds any asset. -/
def registry_released : atomicassets where
  get_assets := fun _ => []
  get_templates := fun c =>
    if c = heroes then [{ template_id := 4, transferable := true }] else []
  end_transferable := fun _ _ => false

/-- The value `config_s{}` with an empty allow-list. -/
def default_config : config_s where
  version := "1.3.2"
  stake_counter := 0
  minimum_claim_duration := 1440
  minimum_calc_duaration := 720
  apoc_token := { token_contract := 3848470226140893568, token_symbol := 289093468416 }
  atomicassets_account := 3920707972631802752
  supported_tokens := []

/-- A state whose pool holds the stake `1` of `alice` on the assets `5` and `9`. -/
def state_one_stake : extractor where
  pool := [{ stake_id := 1, owner := alice, asset_ids := [5, 9], offer_id := none,
             collection_name := heroes }]
  balances := []
  counters := [{ counter_name := stake_name, counter_value := 2 }]
  config := default_config
  sent := [.lognewstake 1 alice [5, 9] heroes]

/-! ## Supported tokens (`extractor.cpp`, lines 314-362) -/

/-- Lines 319-326: the loop of `require_get_supported_token_contract` and the
`check(false, ...)` after it. -/
def supported_token_contract_loop (token_symbol : symbol) : List TOKEN → Except Err name
  | [] => .error .UnsupportedToken
  | supported_token :: rest =>
    if supported_token.token_symbol = token_symbol then .ok supported_token.token_contract
    else supported_token_contract_loop token_symbol rest

/-- The function `extractor::require_get_supported_token_contract`. The singleton
`config` is taken to exist (`init` has run). -/
def require_get_supported_token_contract (config : config_s) (token_symbol : symbol) :
    Except Err name :=
  supported_token_contract_loop token_symbol config.supported_tokens

/-- Lines 339-344: the loop of `is_token_supported`. -/
def is_token_supported_loop (token_contract : name) (token_symbol : symbol) :
    List TOKEN → Bool
  | [] => false
  | supported_token :: rest =>
    if supported_token.token_contract = token_contract ∧
        supported_token.token_symbol = token_symbol then true
    else is_token_supported_loop token_contract token_symbol rest

/-- The function `extractor::is_token_supported`. -/
def is_token_supported (config : config_s) (token_contract : name) (token_symbol : symbol) :
    Bool :=
  is_token_supported_loop token_contract token_symbol config.supported_tokens

/-- The function `extractor::is_symbol_supported`. -/
def is_symbol_supported (config : config_s) (token_symbol : symbol) : Bool :=
  config.supported_tokens.any (fun supported_token => supported_token.token_symbol = token_symbol)

/-! ## Withdrawal and deposits (`extractor.cpp`, lines 263-275 and 369-392) -/

/-- The function `extractor::internal_withdraw_tokens`; `self` is `get_self()`. -/
def internal_withdraw_tokens (self : name) (st : extractor) (withdrawer : name)
    (quantity : asset) (memo : String) : Except Err extractor :=
  if ¬ quantity.amount > 0 then .error .NonPositiveQuantity
  else
    match internal_decrease_balance st.balances withdrawer quantity with
    | .error e => .error e
    | .ok balances =>
      match require_get_supported_token_contract st.config quantity.symbol with
      | .error e => .error e
      | .ok withdraw_token_contract =>
        .ok { st with
          balances := balances
          sent := st.sent ++
            [.transfer withdraw_token_contract self withdrawer quantity memo] }

/-- The function `extractor::receive_token_transfer`; `self` is `get_self()`,
`first_receiver` is `get_first_receiver()`, the token contract that sent the
notification, and `from_`, `to_` are the arguments `from`, `to`. The failure of
`check(is_token_supported(...))` is the spec's `UnsupportedToken`. -/
def receive_token_transfer (self first_receiver : name) (st : extractor)
    (from_ to_ : name) (quantity : asset) (memo : String) : Except Err extractor :=
  if to_ ≠ self then .ok st
  else if ¬ is_token_supported st.config first_receiver quantity.symbol then
    .error .UnsupportedToken
  else if memo = "claim" then
    match internal_add_balance st.balances from_ quantity with
    | .error e => .error e
    | .ok balances => .ok { st with balances := balances }
  else .error .InvalidMemo

/-! ## Sequences of pool actions -/

/-- A call of `stake` or of `unstake`, with the registry snapshot it runs under. -/
inductive pool_call where
  | stake (aa : atomicassets) (owner : name) (asset_ids : List Nat)
  | unstake (aa : atomicassets) (stake_id : Nat)

/-- The state after one call: a failed call leaves the state as it was. -/
def pool_step (sha256 : List Nat → checksum256) (st : extractor) : pool_call → extractor
  | .stake aa owner asset_ids => commit st (stake sha256 aa st owner asset_ids)
  | .unstake aa stake_id => commit st (unstake aa st stake_id)

/-- The state after a sequence of calls. -/
def pool_run (sha256 : List Nat → checksum256) (st : extractor) (calls : List pool_call) :
    extractor :=
  calls.foldl (pool_step sha256) st

/-- No two stakes of the pool have both the same owner and the same content hash. -/
def no_duplicate_stakes (sha256 : List Nat → checksum256) (pool : List stake_s) : Prop :=
  pool.Pairwise (fun a b =>
    ¬ (a.owner = b.owner ∧ a.asset_ids_hash sha256 = b.asset_ids_hash sha256))

instance (sha256 : List Nat → checksum256) (pool : List stake_s) :
    Decidable (no_duplicate_stakes sha256 pool) := by
  unfold no_duplicate_stakes; infer_instance

/-- The value of `name("extractor")`, the account of the contract. -/
def extractor_account : name := 6301506898666979328

/-- The value of `name("eosio.token")`, a token contract. -/
def eosio_token : name := 6138663591592764928

/-- A state with empty tables and the default configuration. -/
def fresh_state : extractor where
  pool := []
  balances := []
  counters := []
  config := default_config
  sent := []

/-- A state in which `TOK` of `eosio.token` is supported and `alice` has `50 TOK`. -/
def state_with_balance : extractor where
  pool := []
  balances := [{ owner := alice, quantities := [{ amount := 50, symbol := TOK }] }]
  counters := []
  config := { default_config with
    supported_tokens := [{ token_contract := eosio_token, token_symbol := TOK }] }
  sent := []

/-- The largest `int64_t`. -/
def int64_max : Int := 9223372036854775807

/-- The largest `uint64_t`. -/
def uint64_max : Nat := 18446744073709551615

/-! ## The ids allotted to stakes -/

/-- The `stake_id` of each `lognewstake` action of a list of inline actions, in
order: the ids allotted by the successful calls of `stake`. -/
def lognewstake_ids : List inline_action → List Nat
  | [] => []
  | .lognewstake stake_id _ _ _ :: rest => stake_id :: lognewstake_ids rest
  | .transfer _ _ _ _ _ :: rest => lognewstake_ids rest

/-- A registry in which every account holds an asset `1` of the collection `heroes`
without a template (the table of each account is its own scope). -/
def registry_everyone : atomicassets where
  get_assets := fun _ => [{ asset_id := 1, collection_name := heroes, template_id := -1 }]
  get_templates := fun _ => []
  end_transferable := fun _ _ => false

/-- The calls `stake(k, [1])` for the accounts `k = 0, ..., n - 1`, each under
`registry_everyone`. -/
def stakes_by_everyone (n : Nat) : List pool_call :=
  (List.range n).map (fun k => pool_call.stake registry_everyone k [1])

/-- The bookkeeping of stake ids: the ids allotted so far are `1, ..., n`, the stored
value of the `"stake"` counter is `n + 1` (no record when `n = 0`), and the ids of the
stakes in the pool are among the ids allotted, in order. -/
def stake_ids_inv (st : extractor) : Prop :=
  lognewstake_ids st.sent = List.range' 1 (lognewstake_ids st.sent).length ∧
  counter_value st.counters stake_name =
    (if (lognewstake_ids st.sent).length = 0 then none
      else some ((lognewstake_ids st.sent).length + 1)) ∧
  (st.pool.map stake_s.stake_id).Sublist (lognewstake_ids st.sent)

instance (st : extractor) : Decidable (stake_ids_inv st) := by
  unfold stake_ids_inv; infer_instance

/-! # Theorems -/

/-! ## Facts about tables -/

theorem table_find_emplace_of_none {α κ : Type} [DecidableEq κ] (pk : α → κ) (k : κ)
    (t : List α) (r : α) (hnone : table_find pk k t = none) (hr : pk r = k) :
    table_find pk k (table_emplace t r) = some r := by
  unfold table_find table_emplace at *
  rw [List.find?_append, hnone]
  simp [hr]

theorem table_find_modify_self {α κ : Type} [DecidableEq κ] (pk : α → κ) (k : κ)
    (f : α → α) (t : List α) (r : α) (hfind : table_find pk k t = some r)
    (hf : pk (f r) = k) :
    table_find pk k (table_modify pk k f t) = some (f r) := by
  induction t with
  | nil => simp [table_find] at hfind
  | cons a rest ih =>
    unfold table_find at hfind ih ⊢
    by_cases ha : pk a = k
    · simp only [List.find?_cons, ha, decide_True] at hfind
      cases hfind
      simp [table_modify, ha, hf]
    · simp only [List.find?_cons, ha, decide_False] at hfind
      simp only [table_modify, ha, if_false, List.find?_cons, decide_False]
      exact ih hfind

theorem table_erase_emplace_of_none {α κ : Type} [DecidableEq κ] (pk : α → κ) (k : κ)
    (t : List α) (r : α) (hnone : table_find pk k t = none) (hr : pk r = k) :
    table_erase pk k (table_emplace t r) = t := by
  induction t with
  | nil => simp [table_emplace, table_erase, hr]
  | cons a rest ih =>
    unfold table_find at hnone ih
    by_cases ha : pk a = k
    · simp [List.find?_cons, ha] at hnone
    · simp only [List.find?_cons, ha, decide_False] at hnone
      have := ih hnone
      simpa [table_emplace, table_erase, ha] using this

theorem table_modify_modify {α κ : Type} [DecidableEq κ] (pk : α → κ) (k : κ)
    (f g : α → α) (t : List α) (r : α) (hfind : table_find pk k t = some r)
    (hf : pk (f r) = k) (hgf : g (f r) = r) :
    table_modify pk k g (table_modify pk k f t) = t := by
  induction t with
  | nil => rfl
  | cons a rest ih =>
    unfold table_find at hfind ih
    by_cases ha : pk a = k
    · simp only [List.find?_cons, ha, decide_True] at hfind
      cases hfind
      simp [table_modify, ha, hf, hgf]
    · simp only [List.find?_cons, ha, decide_False] at hfind
      simp only [table_modify, ha, if_false]
      rw [ih hfind]

theorem table_erase_modify_of_find {α κ : Type} [DecidableEq κ] (pk : α → κ) (k : κ)
    (f : α → α) (t : List α) (r : α) (hfind : table_find pk k t = some r)
    (hf : pk (f r) = k) :
    table_erase pk k (table_modify pk k f t) = table_erase pk k t := by
  induction t with
  | nil => rfl
  | cons a rest ih =>
    unfold table_find at hfind ih
    by_cases ha : pk a = k
    · simp only [List.find?_cons, ha, decide_True] at hfind
      cases hfind
      simp [table_modify, table_erase, ha, hf]
    · simp only [List.find?_cons, ha, decide_False] at hfind
      simp only [table_modify, table_erase, ha, if_false]
      rw [ih hfind]

/-! ## Counter -/

theorem consume_counter_of_none (counters : List counters_s) (nm : name)
    (h : counter_value counters nm = none) :
    (consume_counter counters nm).1 = 1 ∧
      counter_value (consume_counter counters nm).2 nm = some 2 := by
  have hfind : table_find counters_s.counter_name nm counters = none := by
    simpa [counter_value] using h
  simp only [consume_counter, hfind, counter_value]
  refine ⟨trivial, ?_⟩
  rw [table_find_emplace_of_none _ _ _ _ hfind rfl]
  rfl

theorem consume_counter_of_some (counters : List counters_s) (nm : name) (v : Nat)
    (h : counter_value counters nm = some v) :
    (consume_counter counters nm).1 = v ∧
      counter_value (consume_counter counters nm).2 nm = some (wrap_u64 (v + 1)) := by
  obtain ⟨row, hfind, hv⟩ : ∃ row, table_find counters_s.counter_name nm counters = some row
      ∧ row.counter_value = v := by
    simpa [counter_value] using h
  have hname : row.counter_name = nm := by
    have := List.find?_some hfind
    simpa using this
  simp only [consume_counter, hfind, counter_value]
  refine ⟨hv, ?_⟩
  rw [table_find_modify_self _ _ _ _ row hfind hname]
  simp [hv]

theorem consume_counter_times_of_some (nm : name) :
    ∀ (n : Nat) (counters : List counters_s) (v : Nat),
      counter_value counters nm = some v → v + n < 2 ^ 64 →
      (consume_counter_times nm n counters).1 = List.range' v n ∧
        counter_value (consume_counter_times nm n counters).2 nm = some (v + n) := by
  intro n
  induction n with
  | zero => intro counters v h _; exact ⟨rfl, by simpa [consume_counter_times] using h⟩
  | succ n ih =>
    intro counters v h hlt
    obtain ⟨h1, h2⟩ := consume_counter_of_some counters nm v h
    have hw : wrap_u64 (v + 1) = v + 1 := Nat.mod_eq_of_lt (by omega)
    rw [hw] at h2
    obtain ⟨i1, i2⟩ := ih (consume_counter counters nm).2 (v + 1) h2 (by omega)
    simp only [consume_counter_times]
    refine ⟨?_, ?_⟩
    · simp only [i1, h1, List.range'_succ]
    · rw [i2]; congr 1; omega

theorem consume_counter_times_fresh (nm : name) (n : Nat) (counters : List counters_s)
    (h : counter_value counters nm = none) (hn : 1 ≤ n) (hlt : n + 1 < 2 ^ 64) :
    (consume_counter_times nm n counters).1 = List.range' 1 n ∧
      counter_value (consume_counter_times nm n counters).2 nm = some (n + 1) := by
  obtain ⟨m, rfl⟩ : ∃ m, n = m + 1 := ⟨n - 1, by omega⟩
  obtain ⟨h1, h2⟩ := consume_counter_of_none counters nm h
  obtain ⟨i1, i2⟩ := consume_counter_times_of_some nm m (consume_counter counters nm).2 2 h2
    (by omega)
  simp only [consume_counter_times]
  refine ⟨?_, ?_⟩
  · simp only [i1, h1, List.range'_succ]
  · rw [i2]; congr 1; omega

theorem consume_counter_times_succ (nm : name) :
    ∀ (n : Nat) (counters : List counters_s),
      consume_counter_times nm (n + 1) counters =
        ((consume_counter_times nm n counters).1 ++
            [(consume_counter (consume_counter_times nm n counters).2 nm).1],
          (consume_counter (consume_counter_times nm n counters).2 nm).2) := by
  have e : ∀ (m : Nat) (c : List counters_s), consume_counter_times nm (m + 1) c =
      ((consume_counter c nm).1 :: (consume_counter_times nm m (consume_counter c nm).2).1,
        (consume_counter_times nm m (consume_counter c nm).2).2) := fun _ _ => rfl
  intro n
  induction n with
  | zero => intro counters; simp [consume_counter_times]
  | succ n ih =>
    intro counters
    rw [e (n + 1) counters, ih (consume_counter counters nm).2, e n counters]
    simp

theorem consume_counter_times_succ_snd (nm : name) (n : Nat) (counters : List counters_s) :
    (consume_counter_times nm (n + 1) counters).2 =
      (consume_counter (consume_counter_times nm n counters).2 nm).2 := by
  rw [consume_counter_times_succ]

/-! ## Validator -/

theorem adjacent_find_none_of_nodup : ∀ (l : List Nat), l.Nodup → adjacent_find l = none
  | [], _ => rfl
  | [_], _ => rfl
  | a :: b :: rest, h => by
    have hab : a ≠ b := by
      intro e
      have := (List.nodup_cons.mp h).1
      simp [e] at this
    have ih := adjacent_find_none_of_nodup (b :: rest) (List.nodup_cons.mp h).2
    simp [adjacent_find, hab, ih]

theorem nodup_of_sorted_of_adjacent_find_none :
    ∀ (l : List Nat), l.Sorted (· ≤ ·) → adjacent_find l = none → l.Nodup
  | [], _, _ => List.nodup_nil
  | [_], _, _ => List.nodup_singleton _
  | a :: b :: rest, hs, hn => by
    have hab : a ≠ b := by
      intro e
      simp [adjacent_find, e] at hn
    have hrest : adjacent_find (b :: rest) = none := by
      simpa [adjacent_find, hab] using hn
    have hs2 : (b :: rest).Sorted (· ≤ ·) := (List.sorted_cons.mp hs).2
    have ih := nodup_of_sorted_of_adjacent_find_none (b :: rest) hs2 hrest
    refine List.nodup_cons.mpr ⟨?_, ih⟩
    intro hmem
    have hle : a ≤ b := (List.sorted_cons.mp hs).1 b (List.mem_cons_self _ _)
    have hlt : a < b := lt_of_le_of_ne hle hab
    rcases List.mem_cons.mp hmem with e | hm
    · exact hab e
    · have := (List.sorted_cons.mp hs2).1 a hm
      omega

theorem adjacent_find_sort_eq_none_iff (l : List Nat) :
    adjacent_find (l.insertionSort (· ≤ ·)) = none ↔ l.Nodup := by
  constructor
  · intro h
    have := nodup_of_sorted_of_adjacent_find_none _ (List.sorted_insertionSort _ l) h
    exact (List.perm_insertionSort _ l).nodup_iff.mp this
  · intro h
    exact adjacent_find_none_of_nodup _ ((List.perm_insertionSort _ l).nodup_iff.mpr h)

theorem get_collection_and_check_assets_of_nodup (aa : atomicassets) (owner : name)
    (asset_ids : List Nat) (hne : asset_ids ≠ []) (hnd : asset_ids.Nodup) :
    get_collection_and_check_assets aa owner asset_ids =
      check_assets_loop aa (aa.get_assets owner) asset_ids empty_name := by
  have hlen : asset_ids.length ≠ 0 := by simpa using hne
  simp [get_collection_and_check_assets, hlen, (adjacent_find_sort_eq_none_iff asset_ids).mpr hnd]

theorem check_assets_loop_same_collection (aa : atomicassets) (owner_assets : List assets_s)
    (C : name) :
    ∀ (asset_ids : List Nat) (acc : name), (acc = empty_name ∨ acc = C) →
      (∀ id ∈ asset_ids, ∃ a, table_find assets_s.asset_id id owner_assets = some a ∧
        a.collection_name = C ∧ check_transferable aa a id = .ok ()) →
      check_assets_loop aa owner_assets asset_ids acc =
        .ok (if asset_ids = [] then acc else C) := by
  intro asset_ids
  induction asset_ids with
  | nil => intro acc _ _; rfl
  | cons id rest ih =>
    intro acc hacc hall
    obtain ⟨a, hfind, hcoll, htr⟩ := hall id (List.mem_cons_self _ _)
    have hstep : check_collection acc a = .ok C := by
      unfold check_collection
      rcases hacc with h | h
      · simp [h, hcoll]
      · by_cases h0 : acc = empty_name
        · simp [h0, hcoll]
        · simp [h0, hcoll, h]
    have hrest := ih C (Or.inr rfl) (fun i hi => hall i (List.mem_cons_of_mem _ hi))
    simp only [check_assets_loop, hfind, htr, hstep, hrest]
    by_cases hr : rest = [] <;> simp [hr]

theorem check_transferable_ok (aa : atomicassets) (a : assets_s) (id : Nat)
    (h : a.template_id ≠ -1 → ∃ t, table_find templates_s.template_id a.template_id
      (aa.get_templates a.collection_name) = some t ∧ t.transferable = true) :
    check_transferable aa a id = .ok () := by
  unfold check_transferable template_transferable
  by_cases ht : a.template_id = -1
  · simp [ht]
  · obtain ⟨t, hfind, htr⟩ := h ht
    simp [ht, hfind, htr]

/-! ## Staking pool -/

theorem check_not_staked_of_mem (owner : name) :
    ∀ (l : List stake_s), (∃ s ∈ l, s.owner = owner) →
      check_not_staked owner l = .error .DuplicateStake := by
  intro l
  induction l with
  | nil => rintro ⟨s, hs, _⟩; simp at hs
  | cons a rest ih =>
    rintro ⟨s, hs, ho⟩
    by_cases ha : a.owner = owner
    · simp [check_not_staked, ha]
    · have : ∃ s ∈ rest, s.owner = owner := by
        rcases List.mem_cons.mp hs with e | hm
        · exact absurd (e ▸ ho) ha
        · exact ⟨s, hm, ho⟩
      simp [check_not_staked, ha, ih this]

/-! ## Balance ledger -/

theorem decrease_balance_loop_insufficient (quantity : asset) :
    ∀ (l : List asset) (e : asset), entry_for l quantity.symbol = some e →
      e.amount < quantity.amount →
      decrease_balance_loop quantity l = .error .InsufficientBalance := by
  intro l
  induction l with
  | nil => intro e h; simp [entry_for] at h
  | cons a rest ih =>
    intro e h hlt
    unfold entry_for at h ih
    by_cases ha : a.symbol = quantity.symbol
    · simp only [List.find?_cons, ha, decide_True] at h
      cases h
      have : ¬ a.amount ≥ quantity.amount := by omega
      simp [decrease_balance_loop, ha, this]
    · simp only [List.find?_cons, ha, decide_False] at h
      simp [decrease_balance_loop, ha, ih e h hlt]

theorem table_find_key {α κ : Type} [DecidableEq κ] (pk : α → κ) (k : κ) (t : List α)
    (r : α) (h : table_find pk k t = some r) : pk r = k := by
  have := List.find?_some h
  simpa using this

theorem table_find_mem {α κ : Type} [DecidableEq κ] (pk : α → κ) (k : κ) (t : List α)
    (r : α) (h : table_find pk k t = some r) : r ∈ t :=
  List.mem_of_find?_eq_some h

theorem wrap_i64_of_range (x : Int) (h1 : -2 ^ 63 ≤ x) (h2 : x < 2 ^ 63) : wrap_i64 x = x := by
  unfold wrap_i64
  rw [Int.emod_eq_of_lt (by omega) (by omega)]
  omega

theorem add_balance_loop_of_none (quantity : asset) :
    ∀ (l : List asset), entry_for l quantity.symbol = none →
      add_balance_loop quantity l = (l, false) := by
  intro l
  induction l with
  | nil => intro _; rfl
  | cons a rest ih =>
    intro h
    unfold entry_for at h ih
    by_cases ha : a.symbol = quantity.symbol
    · simp [List.find?_cons, ha] at h
    · simp only [List.find?_cons, ha, decide_False] at h
      simp [add_balance_loop, ha, ih h]

theorem decrease_balance_loop_appended (quantity : asset) :
    ∀ (l : List asset), entry_for l quantity.symbol = none →
      decrease_balance_loop quantity (l ++ [quantity]) = .ok (l, true) := by
  intro l
  induction l with
  | nil => intro _; simp [decrease_balance_loop, wrap_i64]
  | cons a rest ih =>
    intro h
    unfold entry_for at h ih
    by_cases ha : a.symbol = quantity.symbol
    · simp [List.find?_cons, ha] at h
    · simp only [List.find?_cons, ha, decide_False] at h
      simp [decrease_balance_loop, ha, ih h]

theorem add_then_decrease_loop (quantity : asset) (hq : 0 < quantity.amount) :
    ∀ (l : List asset) (e : asset), entry_for l quantity.symbol = some e →
      0 < e.amount → e.amount + quantity.amount < 2 ^ 63 →
      (add_balance_loop quantity l).2 = true ∧
        decrease_balance_loop quantity (add_balance_loop quantity l).1 = .ok (l, true) := by
  intro l
  induction l with
  | nil => intro e h; simp [entry_for] at h
  | cons a rest ih =>
    intro e h hpos hno
    unfold entry_for at h ih
    by_cases ha : a.symbol = quantity.symbol
    · simp only [List.find?_cons, ha, decide_True] at h
      cases h
      have hw1 : wrap_i64 (a.amount + quantity.amount) = a.amount + quantity.amount :=
        wrap_i64_of_range _ (by omega) hno
      have hw2 : wrap_i64 a.amount = a.amount := wrap_i64_of_range _ (by omega) (by omega)
      have hne : a.amount ≠ 0 := by omega
      have hge : a.amount + quantity.amount ≥ quantity.amount := by omega
      obtain ⟨amount, sym⟩ := a
      simp only at ha hw1 hw2 hne hge
      subst ha
      simp [add_balance_loop, decrease_balance_loop, hw1, hw2, hne, hge]
    · simp only [List.find?_cons, ha, decide_False] at h
      obtain ⟨i1, i2⟩ := ih e h hpos hno
      simp [add_balance_loop, decrease_balance_loop, ha, i1, i2]

theorem credit_then_debit_restores (balances : List balances_s) (owner : name)
    (quantity : asset) (hinv : balance_inv balances) (hq : 0 < quantity.amount)
    (hno : ∀ row e, table_find balances_s.owner owner balances = some row →
      entry_for row.quantities quantity.symbol = some e →
      e.amount + quantity.amount < 2 ^ 63) :
    credit_then_debit balances owner quantity = .ok balances := by
  have hq0 : quantity.amount ≠ 0 := by omega
  cases hfind : table_find balances_s.owner owner balances with
  | none =>
    have hadd : internal_add_balance balances owner quantity =
        .ok (table_emplace balances { owner := owner, quantities := [quantity] }) := by
      simp [internal_add_balance, hq0, hq, hfind]
    have hfind2 := table_find_emplace_of_none balances_s.owner owner balances
      { owner := owner, quantities := [quantity] } hfind rfl
    have hloop := decrease_balance_loop_appended quantity [] rfl
    simp only [List.nil_append] at hloop
    simp only [credit_then_debit, hadd, internal_decrease_balance, hfind2, hloop]
    simp [table_erase_emplace_of_none balances_s.owner owner balances
      { owner := owner, quantities := [quantity] } hfind rfl]
  | some row =>
    have hkey : row.owner = owner := table_find_key _ _ _ _ hfind
    obtain ⟨hne, hpos, -⟩ := hinv row (table_find_mem _ _ _ _ hfind)
    have hlen : row.quantities.length > 0 := List.length_pos.mpr hne
    -- the quantities written by the credit, and what the debit's loop makes of them
    obtain ⟨qs, hadd, hloop⟩ : ∃ qs,
        internal_add_balance balances owner quantity =
          .ok (table_modify balances_s.owner owner
            (fun b => { b with quantities := qs }) balances) ∧
        decrease_balance_loop quantity qs = .ok (row.quantities, true) := by
      cases hentry : entry_for row.quantities quantity.symbol with
      | none =>
        refine ⟨row.quantities ++ [quantity], ?_,
          decrease_balance_loop_appended quantity _ hentry⟩
        simp [internal_add_balance, hq0, hq, hfind,
          add_balance_loop_of_none quantity _ hentry]
      | some e =>
        have hmem : e ∈ row.quantities := List.mem_of_find?_eq_some hentry
        obtain ⟨i1, i2⟩ := add_then_decrease_loop quantity hq row.quantities e hentry
          (hpos e hmem) (hno row e hfind hentry)
        refine ⟨(add_balance_loop quantity row.quantities).1, ?_, i2⟩
        have hpair : add_balance_loop quantity row.quantities =
            ((add_balance_loop quantity row.quantities).1, true) := by
          rw [← i1]
        simp only [internal_add_balance, hq0, hq, hfind]
        rw [hpair]
        simp
    have hfind2 := table_find_modify_self balances_s.owner owner
      (fun b => { b with quantities := qs }) balances row hfind hkey
    simp only [credit_then_debit, hadd, internal_decrease_balance, hfind2, hloop]
    simp only [Bool.not_eq_true, Bool.true_eq_false, not_false_eq_true, not_true_eq_false,
      if_false, hlen, if_true]
    rw [table_modify_modify balances_s.owner owner _ _ balances row hfind hkey rfl]

/-! ## Claims -/

/-- C1. `hash_asset_ids` is invariant under permutation: for every digest function,
every list `l` of asset ids and every permutation `l2` of `l`, the hash of `l2` is the
hash of `l`. -/
theorem hash_asset_ids_perm (sha256 : List Nat → checksum256) (l l2 : List Nat)
    (h : l2.Perm l) : hash_asset_ids sha256 l2 = hash_asset_ids sha256 l := by
  have hs : l2.insertionSort (· ≤ ·) = l.insertionSort (· ≤ ·) :=
    List.eq_of_perm_of_sorted
      (((List.perm_insertionSort _ l2).trans h).trans (List.perm_insertionSort _ l).symm)
      (List.sorted_insertionSort _ l2) (List.sorted_insertionSort _ l)
  simp only [hash_asset_ids, hs]

/-- C1 at `[3,1,2]` and `[1,2,3]`. -/
theorem hash_asset_ids_perm_witness :
    [3, 1, 2].Perm [1, 2, 3] ∧
      hash_asset_ids numeral_digest [3, 1, 2] = hash_asset_ids numeral_digest [1, 2, 3] :=
  ⟨by decide, hash_asset_ids_perm numeral_digest [1, 2, 3] [3, 1, 2] (by decide)⟩

/-- C2 as stated fails at `N = 2^64 - 1`: from the empty table the stored value after
`2^64 - 1` calls is `0` (the `uint64_t` increment wraps), not `N + 1`. -/
theorem consume_counter_wraps_after_max :
    counter_value [] stake_name = none ∧
    counter_value (consume_counter_times stake_name (2 ^ 64 - 1) []).2 stake_name = some 0 ∧
    ¬ ((consume_counter_times stake_name (2 ^ 64 - 1) []).1 = List.range' 1 (2 ^ 64 - 1) ∧
      counter_value (consume_counter_times stake_name (2 ^ 64 - 1) []).2 stake_name
        = some (2 ^ 64 - 1 + 1)) := by
  have h0 : counter_value [] stake_name = none := rfl
  have hN : (2 ^ 64 - 1 : Nat) = (2 ^ 64 - 2) + 1 := by norm_num
  obtain ⟨-, h2⟩ := consume_counter_times_fresh stake_name (2 ^ 64 - 2) [] h0
    (by norm_num) (by norm_num)
  have h3 := (consume_counter_of_some _ stake_name _ h2).2
  have hw : wrap_u64 (2 ^ 64 - 2 + 1 + 1) = 0 := by norm_num [wrap_u64]
  rw [hw] at h3
  have key : counter_value (consume_counter_times stake_name (2 ^ 64 - 1) []).2 stake_name
      = some 0 := by
    rw [hN, consume_counter_times_succ_snd]
    exact h3
  refine ⟨h0, key, ?_⟩
  rintro ⟨-, h⟩
  rw [key] at h
  norm_num at h

/-- C2 (amended). Starting from a table with no row for `"stake"`, for every `N` with
`1 ≤ N` and `N + 1 < 2^64`, `N` calls of `consume_counter("stake")` in sequence return
`1, 2, ..., N` in that order and the stored value afterwards is `N + 1`. -/
theorem consume_counter_yields_one_to_n (counters : List counters_s) (N : Nat)
    (h : counter_value counters stake_name = none) (hN : 1 ≤ N) (hlt : N + 1 < 2 ^ 64) :
    (consume_counter_times stake_name N counters).1 = List.range' 1 N ∧
      counter_value (consume_counter_times stake_name N counters).2 stake_name
        = some (N + 1) :=
  consume_counter_times_fresh stake_name N counters h hN hlt

/-- C2 (amended) at `N = 3` from the empty table. -/
theorem consume_counter_yields_one_to_n_witness :
    counter_value [] stake_name = none ∧ 1 ≤ 3 ∧ 3 + 1 < 2 ^ 64 ∧
    (consume_counter_times stake_name 3 []).1 = List.range' 1 3 ∧
      counter_value (consume_counter_times stake_name 3 []).2 stake_name = some (3 + 1) :=
  ⟨rfl, by decide, by norm_num,
    consume_counter_yields_one_to_n [] 3 rfl (by decide) (by norm_num)⟩

/-- C3. Staking the same asset set twice by the same owner fails with `DuplicateStake`:
when the pool holds a stake of `owner` whose `asset_ids` are a permutation of
`asset_ids` and the validation of `(owner, asset_ids)` passes, `stake` fails with
`DuplicateStake`, and the state the chain keeps is the old one (no record inserted, no
counter value consumed). -/
theorem stake_twice_fails (sha256 : List Nat → checksum256) (aa : atomicassets)
    (st : extractor) (owner : name) (asset_ids : List Nat) (s : stake_s) (c : name)
    (hs : s ∈ st.pool) (ho : s.owner = owner) (hp : s.asset_ids.Perm asset_ids)
    (hv : get_collection_and_check_assets aa owner asset_ids = .ok c) :
    stake sha256 aa st owner asset_ids = .error .DuplicateStake ∧
      commit st (stake sha256 aa st owner asset_ids) = st := by
  have hmem : ∃ x ∈ stakes_by_hash sha256 (hash_asset_ids sha256 asset_ids) st.pool,
      x.owner = owner := by
    refine ⟨s, ?_, ho⟩
    unfold stakes_by_hash
    rw [List.mem_filter]
    refine ⟨hs, ?_⟩
    have : hash_asset_ids sha256 s.asset_ids = hash_asset_ids sha256 asset_ids := by
      have hsort : s.asset_ids.insertionSort (· ≤ ·) = asset_ids.insertionSort (· ≤ ·) :=
        List.eq_of_perm_of_sorted
          (((List.perm_insertionSort _ _).trans hp).trans (List.perm_insertionSort _ _).symm)
          (List.sorted_insertionSort _ _) (List.sorted_insertionSort _ _)
      simp only [hash_asset_ids, hsort]
    simpa [stake_s.asset_ids_hash] using this
  have hfail : stake sha256 aa st owner asset_ids = .error .DuplicateStake := by
    simp only [stake, hv, check_not_staked_of_mem owner _ hmem]
  exact ⟨hfail, by rw [hfail]; rfl⟩

/-- C3 at the state with the stake `1` of `alice` on `[5, 9]`: `alice` stakes `[9, 5]`. -/
theorem stake_twice_fails_witness :
    stake numeral_digest registry_holding state_one_stake alice [9, 5]
        = .error .DuplicateStake ∧
      commit state_one_stake (stake numeral_digest registry_holding state_one_stake alice [9, 5])
        = state_one_stake :=
  stake_twice_fails numeral_digest registry_holding state_one_stake alice [9, 5]
    { stake_id := 1, owner := alice, asset_ids := [5, 9], offer_id := none,
      collection_name := heroes } heroes
    (by decide) rfl (by decide) (by decide)

/-- C4 on the code: with the stake `1` of `alice` on `[5, 9]`, `unstake 1` succeeds
and erases the record while `alice` still holds the staked assets, and fails with the
check that the spec calls `StakeStillValid` once `alice` holds none of them. -/
theorem unstake_condition_inverted :
    unstake registry_holding state_one_stake 1 = .ok { state_one_stake with pool := [] } ∧
      unstake registry_released state_one_stake 1 = .error .StakeStillValid := by
  constructor <;> decide

/-- C5 as stated fails: `alice` holds asset `3` of the collection `heroes`, the list
`[3]` is non-empty and duplicate-free, and the validation fails with
`NotTransferable`. -/
theorem validate_fails_not_transferable :
    ([3] : List Nat) ≠ [] ∧ ([3] : List Nat).Nodup ∧
    (∀ id ∈ ([3] : List Nat), ∃ a,
      table_find assets_s.asset_id id (registry_not_transferable.get_assets alice) = some a ∧
        a.collection_name = heroes) ∧
    get_collection_and_check_assets registry_not_transferable alice [3]
      = .error (.NotTransferable 3) := by
  refine ⟨by decide, by decide, ?_, by decide⟩
  intro id hid
  simp only [List.mem_singleton] at hid
  subst hid
  exact ⟨_, rfl, rfl⟩

/-- C5 (amended). For every owner and every non-empty, duplicate-free list of asset
ids such that the registry shows each id held by that owner, every one of those assets
in the same collection `C`, and every one of them that has a template (`template_id`
other than `-1`) with that template in the table of its collection and marked
transferable, `get_collection_and_check_assets` returns `C`. -/
theorem validate_returns_collection (aa : atomicassets) (owner : name)
    (asset_ids : List Nat) (C : name) (hne : asset_ids ≠ []) (hnd : asset_ids.Nodup)
    (hall : ∀ id ∈ asset_ids, ∃ a,
      table_find assets_s.asset_id id (aa.get_assets owner) = some a ∧
        a.collection_name = C ∧
        (a.template_id ≠ -1 → ∃ t, table_find templates_s.template_id a.template_id
          (aa.get_templates a.collection_name) = some t ∧ t.transferable = true)) :
    get_collection_and_check_assets aa owner asset_ids = .ok C := by
  rw [get_collection_and_check_assets_of_nodup aa owner asset_ids hne hnd,
    check_assets_loop_same_collection aa (aa.get_assets owner) C asset_ids empty_name
      (Or.inl rfl)]
  · simp [hne]
  · intro id hid
    obtain ⟨a, hfind, hcoll, htr⟩ := hall id hid
    exact ⟨a, hfind, hcoll, check_transferable_ok aa a id htr⟩

/-- C5 (amended) at `alice` holding `5` and `9` of `heroes`, submitted as `[9, 5]`. -/
theorem validate_returns_collection_witness :
    get_collection_and_check_assets registry_holding alice [9, 5] = .ok heroes :=
  validate_returns_collection registry_holding alice [9, 5] heroes (by decide) (by decide)
    (by
      intro id hid
      simp only [List.mem_cons, List.mem_singleton, List.not_mem_nil, or_false] at hid
      rcases hid with rfl | rfl
      · exact ⟨{ asset_id := 9, collection_name := heroes, template_id := 4 }, rfl, rfl,
          fun _ => ⟨{ template_id := 4, transferable := true }, rfl, rfl⟩⟩
      · exact ⟨{ asset_id := 5, collection_name := heroes, template_id := 4 }, rfl, rfl,
          fun _ => ⟨{ template_id := 4, transferable := true }, rfl, rfl⟩⟩)

/-- C6. For every owner, registry and list of asset ids: the empty list fails with
`EmptyInput`, and a non-empty list in which some id occurs more than once fails with
`DuplicateAsset`, whatever the registry holds. -/
theorem validate_rejects_empty_and_duplicates (aa : atomicassets) (owner : name)
    (asset_ids : List Nat) (h : asset_ids = [] ∨ ¬ asset_ids.Nodup) :
    get_collection_and_check_assets aa owner asset_ids =
      .error (if asset_ids = [] then .EmptyInput else .DuplicateAsset) := by
  by_cases he : asset_ids = []
  · subst he; rfl
  · have hnd : ¬ asset_ids.Nodup := h.resolve_left he
    have hlen : asset_ids.length ≠ 0 := by simpa using he
    have hadj : adjacent_find (asset_ids.insertionSort (· ≤ ·)) ≠ none :=
      fun hnone => hnd ((adjacent_find_sort_eq_none_iff asset_ids).mp hnone)
    simp [get_collection_and_check_assets, hlen, hadj, he]

/-- C6 at the list `[2, 7, 2]`, against a registry in which the owner holds nothing. -/
theorem validate_rejects_empty_and_duplicates_witness :
    get_collection_and_check_assets registry_released alice [2, 7, 2]
      = .error .DuplicateAsset :=
  validate_rejects_empty_and_duplicates registry_released alice [2, 7, 2]
    (Or.inr (by decide))

/-- C7 on the code: `alice` holds asset `1` of the collection named `""` and asset `2`
of the collection `heroes`; the validation of `[1, 2]` does not fail with
`MixedCollection`, it returns `heroes`, while `[2, 1]` is rejected. -/
theorem mixed_collection_missed_for_empty_name :
    get_collection_and_check_assets registry_empty_collection alice [1, 2] = .ok heroes ∧
      get_collection_and_check_assets registry_empty_collection alice [2, 1]
        = .error .MixedCollection := by
  constructor <;> decide

/-- C8. Crediting `0` is a no-op: for every ledger, owner and symbol,
`internal_add_balance` with amount `0` succeeds and returns the ledger unchanged
(so no row is created for an owner who had none). -/
theorem credit_zero_is_noop (balances : List balances_s) (owner : name) (s : symbol) :
    internal_add_balance balances owner { amount := 0, symbol := s } = .ok balances := by
  simp [internal_add_balance]

/-- C9 as stated fails: the ledger whose only row is an empty row of `alice` has
every entry amount positive and no symbol twice, `10 TOK` is a positive quantity, and
`credit(alice, 10 TOK)` followed by `debit(alice, 10 TOK)` erases the row instead of
restoring the ledger. -/
theorem credit_debit_erases_empty_row :
    (∀ row ∈ [({ owner := alice, quantities := [] } : balances_s)],
      (∀ e ∈ row.quantities, 0 < e.amount) ∧ (row.quantities.map asset.symbol).Nodup) ∧
    (0 : Int) < 10 ∧
    credit_then_debit [{ owner := alice, quantities := [] }] alice
      { amount := 10, symbol := TOK } = .ok [] ∧
    credit_then_debit [{ owner := alice, quantities := [] }] alice
      { amount := 10, symbol := TOK } ≠ .ok [{ owner := alice, quantities := [] }] := by
  refine ⟨by decide, by decide, by decide, by decide⟩

/-- C9 (amended). Credit then debit of the same quantity is a round trip: for every
ledger in which every row is non-empty, every entry amount is positive and symbols are
unique per row, every owner and every quantity with a positive amount whose addition
to the owner's entry for the symbol does not exceed the `int64_t` range,
`internal_decrease_balance` after `internal_add_balance` succeeds and yields exactly
the original ledger, the order of the entries included. -/
theorem credit_then_debit_round_trip (balances : List balances_s) (owner : name)
    (quantity : asset) (hinv : balance_inv balances) (hq : 0 < quantity.amount)
    (hno : ∀ row e, table_find balances_s.owner owner balances = some row →
      entry_for row.quantities quantity.symbol = some e →
      e.amount + quantity.amount < 2 ^ 63) :
    credit_then_debit balances owner quantity = .ok balances :=
  credit_then_debit_restores balances owner quantity hinv hq hno

/-- C9 (amended) at `alice` holding `5 TOK`, and from the empty ledger: crediting and
debiting `10 TOK` restores the row in the first case and leaves no row in the second. -/
theorem credit_then_debit_round_trip_witness :
    credit_then_debit [{ owner := alice, quantities := [{ amount := 5, symbol := TOK }] }]
        alice { amount := 10, symbol := TOK }
      = .ok [{ owner := alice, quantities := [{ amount := 5, symbol := TOK }] }] ∧
    credit_then_debit [] alice { amount := 10, symbol := TOK } = .ok [] :=
  ⟨credit_then_debit_round_trip
      [{ owner := alice, quantities := [{ amount := 5, symbol := TOK }] }] alice
      { amount := 10, symbol := TOK } (by decide) (by decide)
      (by
        intro row e hrow hentry
        obtain rfl : row = { owner := alice, quantities := [{ amount := 5, symbol := TOK }] } :=
          (Option.some.inj hrow).symm
        obtain rfl : e = { amount := 5, symbol := TOK } := (Option.some.inj hentry).symm
        decide),
    credit_then_debit_round_trip [] alice { amount := 10, symbol := TOK } (by decide)
      (by decide) (by intro row e hrow; cases hrow)⟩

/-- C10. When the owner has a row whose entry for the quantity's symbol has an amount
strictly less than the requested amount, `internal_decrease_balance` fails with
`InsufficientBalance` and the ledger the chain keeps is unchanged. -/
theorem debit_more_than_available_fails (balances : List balances_s) (owner : name)
    (quantity : asset) (row : balances_s) (e : asset)
    (hrow : table_find balances_s.owner owner balances = some row)
    (hentry : entry_for row.quantities quantity.symbol = some e)
    (hlt : e.amount < quantity.amount) :
    internal_decrease_balance balances owner quantity = .error .InsufficientBalance ∧
      commit balances (internal_decrease_balance balances owner quantity) = balances := by
  have hfail : internal_decrease_balance balances owner quantity
      = .error .InsufficientBalance := by
    simp only [internal_decrease_balance, hrow,
      decrease_balance_loop_insufficient quantity row.quantities e hentry hlt]
  exact ⟨hfail, by rw [hfail]; rfl⟩

/-- C10 at `alice` holding `5 TOK`, debited `10 TOK`. -/
theorem debit_more_than_available_fails_witness :
    internal_decrease_balance
        [{ owner := alice, quantities := [{ amount := 5, symbol := TOK }] }] alice
        { amount := 10, symbol := TOK } = .error .InsufficientBalance ∧
      commit [{ owner := alice, quantities := [{ amount := 5, symbol := TOK }] }]
        (internal_decrease_balance
          [{ owner := alice, quantities := [{ amount := 5, symbol := TOK }] }] alice
          { amount := 10, symbol := TOK })
        = [{ owner := alice, quantities := [{ amount := 5, symbol := TOK }] }] :=
  debit_more_than_available_fails _ alice { amount := 10, symbol := TOK }
    { owner := alice, quantities := [{ amount := 5, symbol := TOK }] }
    { amount := 5, symbol := TOK } rfl rfl (by decide)

/-! ## Facts for the later claims -/

/-! ## Supported tokens, withdrawal and deposits -/

theorem supported_token_contract_loop_of_absent (token_symbol : symbol) :
    ∀ (tokens : List TOKEN), (∀ t ∈ tokens, t.token_symbol ≠ token_symbol) →
      supported_token_contract_loop token_symbol tokens = .error .UnsupportedToken := by
  intro tokens
  induction tokens with
  | nil => intro _; rfl
  | cons t rest ih =>
    intro h
    have ht : t.token_symbol ≠ token_symbol := h t (List.mem_cons_self _ _)
    simp [supported_token_contract_loop, ht, ih (fun x hx => h x (List.mem_cons_of_mem _ hx))]

theorem supported_token_contract_loop_ok (token_symbol : symbol) :
    ∀ (tokens : List TOKEN) (c : name),
      supported_token_contract_loop token_symbol tokens = .ok c →
      ∃ t, tokens.find? (fun t => t.token_symbol = token_symbol) = some t ∧
        t.token_contract = c := by
  intro tokens
  induction tokens with
  | nil => intro c h; simp [supported_token_contract_loop] at h
  | cons t rest ih =>
    intro c h
    by_cases ht : t.token_symbol = token_symbol
    · simp only [supported_token_contract_loop, ht, if_true, Except.ok.injEq] at h
      exact ⟨t, by simp [ht], h⟩
    · simp only [supported_token_contract_loop, ht, if_false] at h
      obtain ⟨x, hx, hc⟩ := ih c h
      exact ⟨x, by simp [ht, hx], hc⟩

theorem supported_token_contract_loop_of_find (token_symbol : symbol) :
    ∀ (tokens : List TOKEN) (t : TOKEN),
      tokens.find? (fun t => t.token_symbol = token_symbol) = some t →
      supported_token_contract_loop token_symbol tokens = .ok t.token_contract := by
  intro tokens
  induction tokens with
  | nil => intro t h; simp at h
  | cons x rest ih =>
    intro t h
    by_cases hx : x.token_symbol = token_symbol
    · rw [List.find?_cons_of_pos _ (by simpa using hx)] at h
      cases h
      simp [supported_token_contract_loop, hx]
    · rw [List.find?_cons_of_neg _ (by simpa using hx)] at h
      simp only [supported_token_contract_loop, if_neg hx]
      exact ih t h

theorem is_token_supported_loop_iff (token_contract : name) (token_symbol : symbol) :
    ∀ (tokens : List TOKEN),
      is_token_supported_loop token_contract token_symbol tokens = true ↔
        ({ token_contract := token_contract, token_symbol := token_symbol } : TOKEN) ∈ tokens := by
  intro tokens
  induction tokens with
  | nil => simp [is_token_supported_loop]
  | cons t rest ih =>
    obtain ⟨tc, ts⟩ := t
    by_cases h : tc = token_contract ∧ ts = token_symbol
    · obtain ⟨rfl, rfl⟩ := h
      simp [is_token_supported_loop]
    · have hne : ¬ (({ token_contract := token_contract, token_symbol := token_symbol } : TOKEN)
          = { token_contract := tc, token_symbol := ts }) := by
        intro e
        injection e with e1 e2
        exact h ⟨e1.symm, e2.symm⟩
      simp only [is_token_supported_loop, h, if_false, ih, List.mem_cons, hne, false_or]

theorem internal_withdraw_tokens_unsupported (self : name) (st : extractor) (withdrawer : name)
    (quantity : asset) (memo : String)
    (habsent : ∀ t ∈ st.config.supported_tokens, t.token_symbol ≠ quantity.symbol) :
    (∃ e, internal_withdraw_tokens self st withdrawer quantity memo = .error e) ∧
      (0 < quantity.amount →
        (∃ b, internal_decrease_balance st.balances withdrawer quantity = .ok b) →
        internal_withdraw_tokens self st withdrawer quantity memo = .error .UnsupportedToken) := by
  have hloop := supported_token_contract_loop_of_absent quantity.symbol _ habsent
  unfold internal_withdraw_tokens require_get_supported_token_contract
  by_cases hq : quantity.amount > 0
  · cases hd : internal_decrease_balance st.balances withdrawer quantity with
    | error e => simp [hq]
    | ok b => simp [hq, hloop]
  · simp [hq]

theorem table_find_modify_other {α κ : Type} [DecidableEq κ] (pk : α → κ) (k other : κ)
    (f : α → α) (hf : ∀ r, pk (f r) = pk r) (hne : other ≠ k) :
    ∀ (t : List α), table_find pk other (table_modify pk k f t) = table_find pk other t := by
  intro t
  have hne2 : ¬ k = other := fun e => hne e.symm
  induction t with
  | nil => rfl
  | cons a rest ih =>
    unfold table_find at ih ⊢
    by_cases ha : pk a = k
    · have h1 : ¬ pk (f a) = other := by rw [hf, ha]; exact hne2
      have h2 : ¬ pk a = other := by rw [ha]; exact hne2
      simp only [table_modify, if_pos ha]
      rw [List.find?_cons_of_neg _ (by simpa using h1),
        List.find?_cons_of_neg _ (by simpa using h2)]
    · simp only [table_modify, if_neg ha]
      by_cases hao : pk a = other
      · rw [List.find?_cons_of_pos _ (by simpa using hao),
          List.find?_cons_of_pos _ (by simpa using hao)]
      · rw [List.find?_cons_of_neg _ (by simpa using hao),
          List.find?_cons_of_neg _ (by simpa using hao)]
        exact ih

theorem table_find_emplace_other {α κ : Type} [DecidableEq κ] (pk : α → κ) (other : κ)
    (t : List α) (r : α) (hne : pk r ≠ other) :
    table_find pk other (table_emplace t r) = table_find pk other t := by
  unfold table_find table_emplace
  rw [List.find?_append]
  simp [hne]

theorem consume_counter_other (counters : List counters_s) (nm other : name)
    (hne : other ≠ nm) :
    counter_value (consume_counter counters nm).2 other = counter_value counters other := by
  unfold consume_counter counter_value
  cases hfind : table_find counters_s.counter_name nm counters with
  | none =>
    simp only
    rw [table_find_emplace_other _ _ _ _ (fun e => hne e.symm)]
  | some row =>
    simp only
    rw [table_find_modify_other counters_s.counter_name nm other
      (fun c => { c with counter_value := wrap_u64 (c.counter_value + 1) }) (fun _ => rfl) hne]

theorem insertionSort_eq_of_perm (l l2 : List Nat) (h : l2.Perm l) :
    l2.insertionSort (· ≤ ·) = l.insertionSort (· ≤ ·) :=
  List.eq_of_perm_of_sorted
    (((List.perm_insertionSort _ l2).trans h).trans (List.perm_insertionSort _ l).symm)
    (List.sorted_insertionSort _ l2) (List.sorted_insertionSort _ l)

theorem table_erase_sublist {α κ : Type} [DecidableEq κ] (pk : α → κ) (k : κ) :
    ∀ (t : List α), (table_erase pk k t).Sublist t := by
  intro t
  induction t with
  | nil => exact List.Sublist.slnil
  | cons a rest ih =>
    by_cases ha : pk a = k
    · simp only [table_erase, if_pos ha]
      exact List.sublist_cons_self a rest
    · simp only [table_erase, if_neg ha]
      exact ih.cons₂ a

theorem check_not_staked_ok (owner : name) :
    ∀ (l : List stake_s), check_not_staked owner l = .ok () → ∀ s ∈ l, s.owner ≠ owner := by
  intro l
  induction l with
  | nil => intro _ s hs; simp at hs
  | cons a rest ih =>
    intro h s hs
    by_cases ha : a.owner = owner
    · simp [check_not_staked, ha] at h
    · simp only [check_not_staked, ne_eq, ha, not_false_eq_true, if_true] at h
      rcases List.mem_cons.mp hs with e | hm
      · rw [e]; exact ha
      · exact ih h s hm

theorem check_not_staked_of_forall (owner : name) :
    ∀ (l : List stake_s), (∀ s ∈ l, s.owner ≠ owner) → check_not_staked owner l = .ok () := by
  intro l
  induction l with
  | nil => intro _; rfl
  | cons a rest ih =>
    intro h
    have ha : a.owner ≠ owner := h a (List.mem_cons_self _ _)
    simp only [check_not_staked, ne_eq, ha, not_false_eq_true, if_true]
    exact ih (fun s hs => h s (List.mem_cons_of_mem _ hs))

theorem table_emplace_checked_ok {α κ : Type} [DecidableEq κ] (pk : α → κ) (t after : List α)
    (r : α) (h : table_emplace_checked pk t r = .ok after) : after = t ++ [r] := by
  unfold table_emplace_checked at h
  cases hf : table_find pk (pk r) t with
  | some x => simp [hf] at h
  | none =>
    simp only [hf, Except.ok.injEq] at h
    exact h.symm

theorem table_emplace_checked_of_free {α κ : Type} [DecidableEq κ] (pk : α → κ) (t : List α)
    (r : α) (h : table_find pk (pk r) t = none) :
    table_emplace_checked pk t r = .ok (t ++ [r]) := by
  simp [table_emplace_checked, h, table_emplace]

theorem table_emplace_checked_of_used {α κ : Type} [DecidableEq κ] (pk : α → κ) (t : List α)
    (r x : α) (h : table_find pk (pk r) t = some x) :
    table_emplace_checked pk t r = .error .PrimaryKeyInUse := by
  simp [table_emplace_checked, h]

theorem stake_ok_pool (sha256 : List Nat → checksum256) (aa : atomicassets) (st after : extractor)
    (owner : name) (asset_ids : List Nat)
    (h : stake sha256 aa st owner asset_ids = .ok after) :
    (∃ new_stake : stake_s, after.pool = st.pool ++ [new_stake] ∧ new_stake.owner = owner ∧
      new_stake.asset_ids = asset_ids) ∧
    ∀ s ∈ st.pool, ¬ (s.owner = owner ∧
      s.asset_ids_hash sha256 = hash_asset_ids sha256 asset_ids) := by
  unfold stake at h
  cases hv : get_collection_and_check_assets aa owner asset_ids with
  | error e => simp [hv] at h
  | ok c =>
    simp only [hv] at h
    cases hc : check_not_staked owner
        (stakes_by_hash sha256 (hash_asset_ids sha256 asset_ids) st.pool) with
    | error e => simp [hc] at h
    | ok u =>
      simp only [hc] at h
      cases he : table_emplace_checked stake_s.stake_id st.pool
          { stake_id := (consume_counter st.counters stake_name).1, owner := owner,
            asset_ids := asset_ids, offer_id := none, collection_name := c } with
      | error e => simp [he] at h
      | ok pool =>
        have hpool := table_emplace_checked_ok _ _ _ _ he
        simp only [he, Except.ok.injEq] at h
        subst h
        subst hpool
        refine ⟨⟨_, rfl, rfl, rfl⟩, ?_⟩
        rintro s hs ⟨ho, hh⟩
        have hmem : s ∈ stakes_by_hash sha256 (hash_asset_ids sha256 asset_ids) st.pool := by
          unfold stakes_by_hash
          rw [List.mem_filter]
          exact ⟨hs, by simpa using hh⟩
        exact check_not_staked_ok owner _ hc s hmem ho

theorem unstake_ok_pool (aa : atomicassets) (st after : extractor) (stake_id : Nat)
    (h : unstake aa st stake_id = .ok after) :
    after = { st with pool := table_erase stake_s.stake_id stake_id st.pool } := by
  unfold unstake at h
  cases hf : table_find stake_s.stake_id stake_id st.pool with
  | none => simp [hf] at h
  | some row =>
    simp only [hf] at h
    by_cases hi : is_stake_invalid (aa.get_assets row.owner) row.asset_ids = true
    · simp only [hi, if_true, Except.ok.injEq] at h
      exact h.symm
    · simp [hi] at h

theorem pool_step_no_duplicate_stakes (sha256 : List Nat → checksum256) (st : extractor)
    (call : pool_call) (hinv : no_duplicate_stakes sha256 st.pool) :
    no_duplicate_stakes sha256 (pool_step sha256 st call).pool := by
  cases call with
  | stake aa owner asset_ids =>
    simp only [pool_step]
    cases h : stake sha256 aa st owner asset_ids with
    | error e => exact hinv
    | ok after =>
      obtain ⟨⟨new_stake, hpool, ho, hids⟩, hno⟩ := stake_ok_pool sha256 aa st after owner asset_ids h
      simp only [commit, hpool]
      unfold no_duplicate_stakes at hinv ⊢
      rw [List.pairwise_append]
      refine ⟨hinv, List.pairwise_singleton _ _, ?_⟩
      intro a ha b hb
      rw [List.mem_singleton] at hb
      subst hb
      have := hno a ha
      simpa [stake_s.asset_ids_hash, ho, hids] using this
  | unstake aa stake_id =>
    simp only [pool_step]
    cases h : unstake aa st stake_id with
    | error e => exact hinv
    | ok after =>
      rw [unstake_ok_pool aa st after stake_id h]
      simp only [commit]
      exact List.Pairwise.sublist (table_erase_sublist _ _ _) hinv

theorem pool_run_no_duplicate_stakes (sha256 : List Nat → checksum256) :
    ∀ (calls : List pool_call) (st : extractor), no_duplicate_stakes sha256 st.pool →
      no_duplicate_stakes sha256 (pool_run sha256 st calls).pool := by
  intro calls
  induction calls with
  | nil => intro st h; exact h
  | cons c rest ih =>
    intro st h
    exact ih (pool_step sha256 st c) (pool_step_no_duplicate_stakes sha256 st c h)

/-! ## Decompositions -/

theorem table_find_split {α κ : Type} [DecidableEq κ] (pk : α → κ) (k : κ) :
    ∀ (t : List α) (row : α), table_find pk k t = some row →
      ∃ t1 t2, t = t1 ++ row :: t2 ∧ (∀ r ∈ t1, pk r ≠ k) ∧
        (∀ f, table_modify pk k f t = t1 ++ f row :: t2) ∧
        table_erase pk k t = t1 ++ t2 := by
  intro t
  induction t with
  | nil => intro row h; simp [table_find] at h
  | cons a rest ih =>
    intro row h
    unfold table_find at h ih
    by_cases ha : pk a = k
    · rw [List.find?_cons_of_pos _ (by simpa using ha)] at h
      cases h
      exact ⟨[], rest, rfl, by simp, fun f => by simp [table_modify, ha],
        by simp [table_erase, ha]⟩
    · rw [List.find?_cons_of_neg _ (by simpa using ha)] at h
      obtain ⟨t1, t2, e, hne, hm, he⟩ := ih row h
      refine ⟨a :: t1, t2, by rw [e]; rfl, ?_, ?_, ?_⟩
      · intro r hr
        rcases List.mem_cons.mp hr with e1 | hm1
        · rw [e1]; exact ha
        · exact hne r hm1
      · intro f
        simp only [table_modify, if_neg ha, hm f, List.cons_append]
      · simp only [table_erase, if_neg ha, he, List.cons_append]

theorem entry_for_split (s : symbol) :
    ∀ (l : List asset) (e : asset), entry_for l s = some e →
      ∃ l1 l2, l = l1 ++ e :: l2 ∧ (∀ x ∈ l1, x.symbol ≠ s) ∧ e.symbol = s := by
  intro l
  induction l with
  | nil => intro e h; simp [entry_for] at h
  | cons a rest ih =>
    intro e h
    unfold entry_for at h ih
    by_cases ha : a.symbol = s
    · rw [List.find?_cons_of_pos _ (by simpa using ha)] at h
      cases h
      exact ⟨[], rest, rfl, by simp, ha⟩
    · rw [List.find?_cons_of_neg _ (by simpa using ha)] at h
      obtain ⟨l1, l2, e1, hne, hs⟩ := ih e h
      refine ⟨a :: l1, l2, by rw [e1]; rfl, ?_, hs⟩
      intro x hx
      rcases List.mem_cons.mp hx with e2 | hm
      · rw [e2]; exact ha
      · exact hne x hm

theorem entry_for_none (s : symbol) :
    ∀ (l : List asset), entry_for l s = none → ∀ x ∈ l, x.symbol ≠ s := by
  intro l h x hx
  unfold entry_for at h
  have := List.find?_eq_none.mp h x hx
  simpa using this

theorem add_balance_loop_split (quantity : asset) (e : asset) (l2 : List asset)
    (he : e.symbol = quantity.symbol) :
    ∀ (l1 : List asset), (∀ x ∈ l1, x.symbol ≠ quantity.symbol) →
      add_balance_loop quantity (l1 ++ e :: l2) =
        (l1 ++ { e with amount := wrap_i64 (e.amount + quantity.amount) } :: l2, true) := by
  intro l1
  induction l1 with
  | nil => intro _; simp [add_balance_loop, he]
  | cons a rest ih =>
    intro h
    have ha : a.symbol ≠ quantity.symbol := h a (List.mem_cons_self _ _)
    simp [add_balance_loop, ha, ih (fun x hx => h x (List.mem_cons_of_mem _ hx))]

theorem decrease_balance_loop_split (quantity : asset) (e : asset) (l2 : List asset)
    (he : e.symbol = quantity.symbol) (hge : e.amount ≥ quantity.amount) :
    ∀ (l1 : List asset), (∀ x ∈ l1, x.symbol ≠ quantity.symbol) →
      decrease_balance_loop quantity (l1 ++ e :: l2) =
        .ok (if wrap_i64 (e.amount - quantity.amount) = 0 then l1 ++ l2
          else l1 ++ { e with amount := wrap_i64 (e.amount - quantity.amount) } :: l2, true) := by
  intro l1
  induction l1 with
  | nil =>
    intro _
    by_cases hz : wrap_i64 (e.amount - quantity.amount) = 0
    · simp [decrease_balance_loop, he, hge, hz]
    · simp [decrease_balance_loop, he, hge, hz]
  | cons a rest ih =>
    intro h
    have ha : a.symbol ≠ quantity.symbol := h a (List.mem_cons_self _ _)
    have hih := ih (fun x hx => h x (List.mem_cons_of_mem _ hx))
    simp only [List.cons_append, decrease_balance_loop, ha, if_false, List.append_eq]
    rw [hih]
    by_cases hz : wrap_i64 (e.amount - quantity.amount) = 0 <;> simp [hz]

theorem decrease_balance_loop_of_none (quantity : asset) :
    ∀ (l : List asset), entry_for l quantity.symbol = none →
      decrease_balance_loop quantity l = .ok (l, false) := by
  intro l
  induction l with
  | nil => intro _; rfl
  | cons a rest ih =>
    intro h
    have ha : a.symbol ≠ quantity.symbol :=
      entry_for_none _ _ h a (List.mem_cons_self _ _)
    have hrest : entry_for rest quantity.symbol = none := by
      unfold entry_for at h ⊢
      rw [List.find?_cons_of_neg _ (by simpa using ha)] at h
      exact h
    simp [decrease_balance_loop, ha, ih hrest]

theorem internal_add_balance_pos (balances : List balances_s) (owner : name)
    (quantity : asset) (hq : 0 < quantity.amount) :
    (table_find balances_s.owner owner balances = none →
      internal_add_balance balances owner quantity =
        .ok (balances ++ [{ owner := owner, quantities := [quantity] }])) ∧
    (∀ row, table_find balances_s.owner owner balances = some row →
      ∃ t1 t2, balances = t1 ++ row :: t2 ∧ (∀ r ∈ t1, r.owner ≠ owner) ∧
        (entry_for row.quantities quantity.symbol = none →
          internal_add_balance balances owner quantity =
            .ok (t1 ++ { row with quantities := row.quantities ++ [quantity] } :: t2)) ∧
        (∀ e, entry_for row.quantities quantity.symbol = some e →
          ∃ l1 l2, row.quantities = l1 ++ e :: l2 ∧
            (∀ x ∈ l1, x.symbol ≠ quantity.symbol) ∧
            internal_add_balance balances owner quantity =
              .ok (t1 ++ { row with quantities :=
                l1 ++ { e with amount := wrap_i64 (e.amount + quantity.amount) } :: l2 }
                  :: t2))) := by
  have hq0 : quantity.amount ≠ 0 := by omega
  have hq1 : quantity.amount > 0 := hq
  refine ⟨?_, ?_⟩
  · intro hfind
    simp [internal_add_balance, hq0, hq1, hfind, table_emplace]
  · intro row hfind
    obtain ⟨t1, t2, e1, hne, hm, -⟩ := table_find_split balances_s.owner owner balances row hfind
    refine ⟨t1, t2, e1, hne, ?_, ?_⟩
    · intro hnone
      simp [internal_add_balance, hq0, hq1, hfind, add_balance_loop_of_none quantity _ hnone, hm]
    · intro e hentry
      obtain ⟨l1, l2, e2, hl1, hs⟩ := entry_for_split quantity.symbol row.quantities e hentry
      refine ⟨l1, l2, e2, hl1, ?_⟩
      have hloop := add_balance_loop_split quantity e l2 hs l1 hl1
      rw [← e2] at hloop
      simp [internal_add_balance, hq0, hq1, hfind, hloop, hm]

theorem internal_decrease_balance_cases (balances : List balances_s) (owner : name)
    (quantity : asset) :
    (table_find balances_s.owner owner balances = none →
      internal_decrease_balance balances owner quantity = .error .NoBalanceRow) ∧
    (∀ row, table_find balances_s.owner owner balances = some row →
      (entry_for row.quantities quantity.symbol = none →
        internal_decrease_balance balances owner quantity = .error .SymbolNotFound) ∧
      (∀ e, entry_for row.quantities quantity.symbol = some e →
        e.amount ≥ quantity.amount →
        ∃ t1 t2 l1 l2, balances = t1 ++ row :: t2 ∧ (∀ r ∈ t1, r.owner ≠ owner) ∧
          row.quantities = l1 ++ e :: l2 ∧ (∀ x ∈ l1, x.symbol ≠ quantity.symbol) ∧
          internal_decrease_balance balances owner quantity =
            .ok (if wrap_i64 (e.amount - quantity.amount) = 0 then
                  (if l1 ++ l2 = [] then t1 ++ t2
                    else t1 ++ { row with quantities := l1 ++ l2 } :: t2)
                else t1 ++ { row with quantities :=
                  l1 ++ { e with amount := wrap_i64 (e.amount - quantity.amount) } :: l2 }
                    :: t2))) := by
  refine ⟨?_, ?_⟩
  · intro hfind
    simp [internal_decrease_balance, hfind]
  · intro row hfind
    refine ⟨?_, ?_⟩
    · intro hnone
      simp [internal_decrease_balance, hfind, decrease_balance_loop_of_none quantity _ hnone]
    · intro e hentry hge
      obtain ⟨t1, t2, e1, hne, hm, her⟩ :=
        table_find_split balances_s.owner owner balances row hfind
      obtain ⟨l1, l2, e2, hl1, hs⟩ := entry_for_split quantity.symbol row.quantities e hentry
      refine ⟨t1, t2, l1, l2, e1, hne, e2, hl1, ?_⟩
      have hloop := decrease_balance_loop_split quantity e l2 hs hge l1 hl1
      rw [← e2] at hloop
      simp only [internal_decrease_balance, hfind, hloop]
      by_cases hz : wrap_i64 (e.amount - quantity.amount) = 0
      · by_cases hemp : l1 ++ l2 = []
        · simp [hz, hemp, her]
        · have hlen : 0 < (l1 ++ l2).length := List.length_pos.mpr hemp
          have hlen2 : 0 < l1.length + l2.length := by simpa using hlen
          simp [hz, hemp, hm, hlen2]
      · simp [hz, hm]


/-! ## The balance invariant -/

theorem balance_inv_replace (t1 t2 : List balances_s) (row new_row : balances_s)
    (hinv : balance_inv (t1 ++ row :: t2))
    (hnew : new_row.quantities ≠ [] ∧ (∀ e ∈ new_row.quantities, 0 < e.amount) ∧
      (new_row.quantities.map asset.symbol).Nodup) :
    balance_inv (t1 ++ new_row :: t2) := by
  intro r hr
  rcases List.mem_append.mp hr with h | h
  · exact hinv r (List.mem_append_left _ h)
  · rcases List.mem_cons.mp h with e | h2
    · rw [e]; exact hnew
    · exact hinv r (List.mem_append_right _ (List.mem_cons_of_mem _ h2))

theorem balance_inv_remove (t1 t2 : List balances_s) (row : balances_s)
    (hinv : balance_inv (t1 ++ row :: t2)) : balance_inv (t1 ++ t2) := by
  intro r hr
  rcases List.mem_append.mp hr with h | h
  · exact hinv r (List.mem_append_left _ h)
  · exact hinv r (List.mem_append_right _ (List.mem_cons_of_mem _ h))

theorem internal_add_balance_preserves_inv (balances after : List balances_s) (owner : name)
    (quantity : asset) (hinv : balance_inv balances)
    (hadd : internal_add_balance balances owner quantity = .ok after)
    (hno : ∀ row e, table_find balances_s.owner owner balances = some row →
      entry_for row.quantities quantity.symbol = some e →
      e.amount + quantity.amount < 2 ^ 63) :
    balance_inv after := by
  rcases lt_trichotomy quantity.amount 0 with hneg | hzero | hpos
  · have hq0 : quantity.amount ≠ 0 := by omega
    have hq1 : ¬ quantity.amount > 0 := by omega
    simp [internal_add_balance, hq0, hq1] at hadd
  · simp only [internal_add_balance, hzero, if_true, Except.ok.injEq] at hadd
    rw [← hadd]; exact hinv
  · obtain ⟨hnone, hsome⟩ := internal_add_balance_pos balances owner quantity hpos
    cases hfind : table_find balances_s.owner owner balances with
    | none =>
      rw [hnone hfind] at hadd
      cases hadd
      intro r hr
      rcases List.mem_append.mp hr with h | h
      · exact hinv r h
      · rw [List.mem_singleton] at h
        subst h
        refine ⟨by simp, ?_, by simp⟩
        intro e he
        rw [List.mem_singleton] at he
        rw [he]; exact hpos
    | some row =>
      obtain ⟨t1, t2, e1, -, happ, hupd⟩ := hsome row hfind
      have hrow := hinv row (by rw [e1]; simp)
      obtain ⟨hne, hposs, hnd⟩ := hrow
      rw [e1] at hinv
      cases hentry : entry_for row.quantities quantity.symbol with
      | none =>
        rw [happ hentry] at hadd
        cases hadd
        refine balance_inv_replace t1 t2 row _ hinv ⟨by simp, ?_, ?_⟩
        · intro e he
          rcases List.mem_append.mp he with h | h
          · exact hposs e h
          · rw [List.mem_singleton] at h
            rw [h]; exact hpos
        · simp only [List.map_append, List.map_cons, List.map_nil]
          rw [List.nodup_append]
          refine ⟨hnd, List.nodup_singleton _, ?_⟩
          intro s hs1 hs2
          rw [List.mem_singleton] at hs2
          obtain ⟨x, hx, hxs⟩ := List.mem_map.mp hs1
          exact entry_for_none _ _ hentry x hx (hxs.trans hs2)
      | some e =>
        obtain ⟨l1, l2, e2, -, hres⟩ := hupd e hentry
        rw [hres] at hadd
        cases hadd
        have hepos : 0 < e.amount := hposs e (by rw [e2]; simp)
        have hw : wrap_i64 (e.amount + quantity.amount) = e.amount + quantity.amount :=
          wrap_i64_of_range _ (by omega) (hno row e hfind hentry)
        refine balance_inv_replace t1 t2 row _ hinv ⟨by simp, ?_, ?_⟩
        · intro x hx
          simp only [List.mem_append, List.mem_cons] at hx
          rcases hx with h | h | h
          · exact hposs x (by rw [e2]; simp [h])
          · rw [h, hw]; show 0 < e.amount + quantity.amount; omega
          · exact hposs x (by rw [e2]; simp [h])
        · rw [e2] at hnd
          simpa using hnd

theorem internal_decrease_balance_preserves_inv (balances after : List balances_s)
    (owner : name) (quantity : asset) (hinv : balance_inv balances)
    (hsub : internal_decrease_balance balances owner quantity = .ok after)
    (hno : ∀ row e, table_find balances_s.owner owner balances = some row →
      entry_for row.quantities quantity.symbol = some e →
      e.amount - quantity.amount < 2 ^ 63) :
    balance_inv after := by
  obtain ⟨hnone, hsome⟩ := internal_decrease_balance_cases balances owner quantity
  cases hfind : table_find balances_s.owner owner balances with
  | none => rw [hnone hfind] at hsub; cases hsub
  | some row =>
    obtain ⟨hsym, hupd⟩ := hsome row hfind
    cases hentry : entry_for row.quantities quantity.symbol with
    | none => rw [hsym hentry] at hsub; cases hsub
    | some e =>
      by_cases hge : e.amount ≥ quantity.amount
      · obtain ⟨t1, t2, l1, l2, e1, -, e2, -, hres⟩ := hupd e hentry hge
        rw [hres] at hsub
        have hrow := hinv row (by rw [e1]; simp)
        obtain ⟨hne, hposs, hnd⟩ := hrow
        rw [e1] at hinv
        have hw : wrap_i64 (e.amount - quantity.amount) = e.amount - quantity.amount :=
          wrap_i64_of_range _ (by omega) (hno row e hfind hentry)
        rw [hw] at hsub
        rw [e2] at hnd hposs
        by_cases hz : e.amount - quantity.amount = 0
        · by_cases hemp : l1 ++ l2 = []
          · simp only [hz, hemp, if_true, Except.ok.injEq] at hsub
            rw [← hsub]
            exact balance_inv_remove t1 t2 row hinv
          · simp only [hz, hemp, if_true, if_false, Except.ok.injEq] at hsub
            rw [← hsub]
            refine balance_inv_replace t1 t2 row _ hinv ⟨hemp, ?_, ?_⟩
            · intro x hx
              rcases List.mem_append.mp hx with h | h
              · exact hposs x (by simp [h])
              · exact hposs x (by simp [h])
            · have hsl : (l1 ++ l2).Sublist (l1 ++ e :: l2) :=
                List.Sublist.append_left (List.sublist_cons_self e l2) l1
              exact List.Nodup.sublist (List.Sublist.map _ hsl) hnd
        · simp only [hz, if_false, Except.ok.injEq] at hsub
          rw [← hsub]
          refine balance_inv_replace t1 t2 row _ hinv ⟨by simp, ?_, ?_⟩
          · intro x hx
            simp only [List.mem_append, List.mem_cons] at hx
            rcases hx with h | h | h
            · exact hposs x (by simp [h])
            · rw [h]; show 0 < e.amount - quantity.amount; omega
            · exact hposs x (by simp [h])
          · simpa using hnd
      · have hfail := decrease_balance_loop_insufficient quantity row.quantities e hentry
          (by omega)
        simp [internal_decrease_balance, hfind, hfail] at hsub


/-! ## Soundness of the validator -/

/-- C11 as stated fails: in the state with empty tables and an empty allow-list the
symbol `TOK` is not supported, and the withdrawal of `10 TOK` by `alice` fails with
`NoBalanceRow`, not with `UnsupportedToken`. -/
theorem withdraw_unsupported_fails_in_debit_first :
    (∀ t ∈ fresh_state.config.supported_tokens, t.token_symbol ≠ TOK) ∧
    internal_withdraw_tokens extractor_account fresh_state alice
      { amount := 10, symbol := TOK } "extractor Withdrawal" = .error .NoBalanceRow ∧
    internal_withdraw_tokens extractor_account fresh_state alice
      { amount := 10, symbol := TOK } "extractor Withdrawal" ≠ .error .UnsupportedToken := by
  refine ⟨by decide, by decide, by decide⟩

/-- C11 (amended). For every state, withdrawer, memo and quantity whose symbol is not
in the supported-token allow-list, `internal_withdraw_tokens` fails, and the state the
chain keeps is the old one (no balance mutation, no outbound transfer). The failure is
`NonPositiveQuantity` when the amount is not positive, the failure of the debit when
the debit fails, and `UnsupportedToken` when the amount is positive and the debit
succeeds. -/
theorem withdraw_unsupported_symbol_fails (self : name) (st : extractor) (withdrawer : name)
    (quantity : asset) (memo : String)
    (habsent : ∀ t ∈ st.config.supported_tokens, t.token_symbol ≠ quantity.symbol) :
    (∃ e, internal_withdraw_tokens self st withdrawer quantity memo = .error e) ∧
    commit st (internal_withdraw_tokens self st withdrawer quantity memo) = st ∧
    (¬ 0 < quantity.amount →
      internal_withdraw_tokens self st withdrawer quantity memo
        = .error .NonPositiveQuantity) ∧
    (0 < quantity.amount → ∀ e,
      internal_decrease_balance st.balances withdrawer quantity = .error e →
      internal_withdraw_tokens self st withdrawer quantity memo = .error e) ∧
    (0 < quantity.amount →
      (∃ b, internal_decrease_balance st.balances withdrawer quantity = .ok b) →
      internal_withdraw_tokens self st withdrawer quantity memo
        = .error .UnsupportedToken) := by
  obtain ⟨⟨e, he⟩, hu⟩ :=
    internal_withdraw_tokens_unsupported self st withdrawer quantity memo habsent
  refine ⟨⟨e, he⟩, by rw [he]; rfl, ?_, ?_, hu⟩
  · intro hq
    simp [internal_withdraw_tokens, hq]
  · intro hq e2 hd
    have hq2 : quantity.amount > 0 := hq
    simp [internal_withdraw_tokens, hq2, hd]

/-- C11 (amended) at `alice` holding `50 TOK` when no token is supported. -/
theorem withdraw_unsupported_symbol_fails_witness :
    internal_withdraw_tokens extractor_account
        { state_with_balance with config := default_config } alice
        { amount := 10, symbol := TOK } "extractor Withdrawal" = .error .UnsupportedToken :=
  (withdraw_unsupported_symbol_fails extractor_account
    { state_with_balance with config := default_config } alice
    { amount := 10, symbol := TOK } "extractor Withdrawal"
    (by decide)).2.2.2.2 (by decide) ⟨_, rfl⟩

/-- C12 as stated fails: the ledger in which `alice` has `2^63 - 1` of `TOK` satisfies
the invariant, the credit of `1 TOK` succeeds, and the entry it leaves has the amount
`-2^63`: the `int64_t` addition wraps and the invariant is lost. -/
theorem credit_overflow_breaks_invariant :
    balance_inv [{ owner := alice, quantities := [{ amount := int64_max, symbol := TOK }] }] ∧
    internal_add_balance
        [{ owner := alice, quantities := [{ amount := int64_max, symbol := TOK }] }] alice
        { amount := 1, symbol := TOK }
      = .ok [{ owner := alice,
               quantities := [{ amount := -9223372036854775808, symbol := TOK }] }] ∧
    ¬ balance_inv [{ owner := alice,
                     quantities := [{ amount := -9223372036854775808, symbol := TOK }] }] := by
  refine ⟨by decide, by decide, by decide⟩

/-- C12 (amended). Balance-ledger invariant: the predicate 'every balance row is
non-empty, every entry has amount > 0, and no two entries of one row share a symbol'
holds of the empty ledger, and it is preserved by every successful
`internal_add_balance` and every successful `internal_decrease_balance`, for every
owner and quantity, provided the `int64_t` addition, respectively subtraction, on the
owner's entry for the symbol does not overflow. -/
theorem balance_inv_preserved (balances after : List balances_s) (owner : name)
    (quantity : asset) (hinv : balance_inv balances)
    (hstep :
      (internal_add_balance balances owner quantity = .ok after ∧
        ∀ row e, table_find balances_s.owner owner balances = some row →
          entry_for row.quantities quantity.symbol = some e →
          e.amount + quantity.amount < 2 ^ 63) ∨
      (internal_decrease_balance balances owner quantity = .ok after ∧
        ∀ row e, table_find balances_s.owner owner balances = some row →
          entry_for row.quantities quantity.symbol = some e →
          e.amount - quantity.amount < 2 ^ 63)) :
    balance_inv [] ∧ balance_inv after := by
  refine ⟨fun r hr => by simp at hr, ?_⟩
  rcases hstep with ⟨hadd, hno⟩ | ⟨hsub, hno⟩
  · exact internal_add_balance_preserves_inv balances after owner quantity hinv hadd hno
  · exact internal_decrease_balance_preserves_inv balances after owner quantity hinv hsub hno

/-- C12 (amended) at `alice` holding `50 TOK`: after the debit of `50 TOK` and after
the credit of `10 TOK`. -/
theorem balance_inv_preserved_witness :
    (balance_inv [] ∧ balance_inv ([] : List balances_s)) ∧
    (balance_inv [] ∧
      balance_inv [{ owner := alice, quantities := [{ amount := 60, symbol := TOK }] }]) :=
  ⟨balance_inv_preserved state_with_balance.balances [] alice { amount := 50, symbol := TOK }
      (by decide)
      (Or.inr ⟨by decide, by
        intro row e hrow hentry
        obtain rfl : row = { owner := alice, quantities := [{ amount := 50, symbol := TOK }] } :=
          (Option.some.inj hrow).symm
        obtain rfl : e = { amount := 50, symbol := TOK } := (Option.some.inj hentry).symm
        decide⟩),
    balance_inv_preserved state_with_balance.balances
      [{ owner := alice, quantities := [{ amount := 60, symbol := TOK }] }] alice
      { amount := 10, symbol := TOK } (by decide)
      (Or.inl ⟨by decide, by
        intro row e hrow hentry
        obtain rfl : row = { owner := alice, quantities := [{ amount := 50, symbol := TOK }] } :=
          (Option.some.inj hrow).symm
        obtain rfl : e = { amount := 50, symbol := TOK } := (Option.some.inj hentry).symm
        decide⟩)⟩

/-- C13. Stake-pool invariant: in every state reached from a state with an empty
pool by a sequence of `stake` and `unstake` calls, under any registry snapshots, no
two stakes of the pool have both the same owner and the same content hash; in
particular no two have the same owner and asset ids that are permutations of each
other. -/
theorem reachable_pool_has_no_duplicate_stakes (sha256 : List Nat → checksum256)
    (st : extractor) (calls : List pool_call) (hempty : st.pool = []) :
    no_duplicate_stakes sha256 (pool_run sha256 st calls).pool ∧
      (pool_run sha256 st calls).pool.Pairwise
        (fun a b => ¬ (a.owner = b.owner ∧ a.asset_ids.Perm b.asset_ids)) := by
  have h0 : no_duplicate_stakes sha256 st.pool := by
    rw [hempty]; exact List.Pairwise.nil
  have h := pool_run_no_duplicate_stakes sha256 calls st h0
  refine ⟨h, ?_⟩
  refine List.Pairwise.imp ?_ h
  rintro a b hab ⟨ho, hp⟩
  refine hab ⟨ho, ?_⟩
  simp only [stake_s.asset_ids_hash, hash_asset_ids, insertionSort_eq_of_perm _ _ hp]

/-- C13 on a run from the state with empty tables: `alice` stakes `[5, 9]`, stakes
`[9, 5]` (refused), stakes `[9]`, and stake `1` is unstaked. -/
theorem reachable_pool_has_no_duplicate_stakes_witness :
    fresh_state.pool = [] ∧
    no_duplicate_stakes numeral_digest
      (pool_run numeral_digest fresh_state
        [.stake registry_holding alice [5, 9], .stake registry_holding alice [9, 5],
         .stake registry_holding alice [9], .unstake registry_holding 1]).pool ∧
    (pool_run numeral_digest fresh_state
        [.stake registry_holding alice [5, 9], .stake registry_holding alice [9, 5],
         .stake registry_holding alice [9], .unstake registry_holding 1]).pool.Pairwise
      (fun a b => ¬ (a.owner = b.owner ∧ a.asset_ids.Perm b.asset_ids)) :=
  ⟨rfl, reachable_pool_has_no_duplicate_stakes numeral_digest fresh_state _ rfl⟩

/-- C14. For every transfer notification addressed to the contract (`to` is the
contract itself): when the pair of the sending token contract and the symbol is not
in the allow-list it fails with `UnsupportedToken`; otherwise, when the memo is
`"claim"`, it is `internal_add_balance(from, quantity)` on the ledger (the same
failure when the credit fails, the credited ledger and nothing else changed when it
succeeds); otherwise it fails with `InvalidMemo` and the state the chain keeps is the
old one. -/
theorem receive_token_transfer_to_self (self first_receiver : name) (st : extractor)
    (from_ : name) (quantity : asset) (memo : String) :
    (({ token_contract := first_receiver, token_symbol := quantity.symbol } : TOKEN)
        ∉ st.config.supported_tokens →
      receive_token_transfer self first_receiver st from_ self quantity memo
        = .error .UnsupportedToken) ∧
    (({ token_contract := first_receiver, token_symbol := quantity.symbol } : TOKEN)
        ∈ st.config.supported_tokens → memo = "claim" →
      receive_token_transfer self first_receiver st from_ self quantity memo
        = (internal_add_balance st.balances from_ quantity).map
            (fun balances => { st with balances := balances })) ∧
    (({ token_contract := first_receiver, token_symbol := quantity.symbol } : TOKEN)
        ∈ st.config.supported_tokens → memo ≠ "claim" →
      receive_token_transfer self first_receiver st from_ self quantity memo
          = .error .InvalidMemo ∧
        commit st (receive_token_transfer self first_receiver st from_ self quantity memo)
          = st) := by
  have hiff := is_token_supported_loop_iff first_receiver quantity.symbol
    st.config.supported_tokens
  refine ⟨?_, ?_, ?_⟩
  · intro hn
    have hfalse : is_token_supported st.config first_receiver quantity.symbol = false := by
      cases h : is_token_supported st.config first_receiver quantity.symbol with
      | false => rfl
      | true => exact absurd (hiff.mp h) hn
    simp [receive_token_transfer, hfalse]
  · intro hm hmemo
    have htrue : is_token_supported st.config first_receiver quantity.symbol = true :=
      hiff.mpr hm
    simp only [receive_token_transfer, htrue, hmemo]
    cases internal_add_balance st.balances from_ quantity <;> simp [Except.map]
  · intro hm hmemo
    have htrue : is_token_supported st.config first_receiver quantity.symbol = true :=
      hiff.mpr hm
    have hfail : receive_token_transfer self first_receiver st from_ self quantity memo
        = .error .InvalidMemo := by
      simp [receive_token_transfer, htrue, hmemo]
    exact ⟨hfail, by rw [hfail]; rfl⟩

/-- C14 at the deposit of `10 TOK` by `alice` with the memo `"claim"`, and with the
memo `"stake"`. -/
theorem receive_token_transfer_to_self_witness :
    receive_token_transfer extractor_account eosio_token state_with_balance alice
        extractor_account { amount := 10, symbol := TOK } "claim"
      = (internal_add_balance state_with_balance.balances alice
          { amount := 10, symbol := TOK }).map
          (fun balances => { state_with_balance with balances := balances }) ∧
    receive_token_transfer extractor_account eosio_token state_with_balance alice
        extractor_account { amount := 10, symbol := TOK } "stake"
      = .error .InvalidMemo :=
  ⟨(receive_token_transfer_to_self extractor_account eosio_token state_with_balance alice
      { amount := 10, symbol := TOK } "claim").2.1 (by decide) rfl,
    ((receive_token_transfer_to_self extractor_account eosio_token state_with_balance alice
      { amount := 10, symbol := TOK } "stake").2.2 (by decide) (by decide)).1⟩

/-- C15 as stated fails, in two ways. With the stored value `2^64 - 1` for `"stake"`,
the stake of `[5, 9]` by `alice` succeeds with `stake_id = 2^64 - 1` and the stored
value becomes `0`: the counter does not advance by one. And in the state with the
stake `1` of `alice` on `[5, 9]` and no counter record, the validation of `[9]` passes
and no stake has the same hash, yet `stake` does not succeed: `consume_counter`
returns `1`, which is the primary key of a row of the pool, and the host refuses the
`emplace`. -/
theorem stake_counter_wraps_or_id_in_use :
    (get_collection_and_check_assets registry_holding alice [5, 9] = .ok heroes ∧
      counter_value [{ counter_name := stake_name, counter_value := uint64_max }] stake_name
        = some uint64_max ∧
      stake numeral_digest registry_holding
          { fresh_state with
            counters := [{ counter_name := stake_name, counter_value := uint64_max }] }
          alice [5, 9]
        = .ok { fresh_state with
            counters := [{ counter_name := stake_name, counter_value := 0 }]
            pool := [{ stake_id := uint64_max, owner := alice, asset_ids := [5, 9],
                       offer_id := none, collection_name := heroes }]
            sent := [.lognewstake uint64_max alice [5, 9] heroes] } ∧
      (0 : Nat) ≠ uint64_max + 1) ∧
    (get_collection_and_check_assets registry_holding alice [9] = .ok heroes ∧
      (∀ s ∈ state_one_stake.pool,
        ¬ (s.asset_ids_hash numeral_digest = hash_asset_ids numeral_digest [9] ∧
          s.owner = alice)) ∧
      stake numeral_digest registry_holding { state_one_stake with counters := [] } alice [9]
        = .error .PrimaryKeyInUse) := by
  refine ⟨⟨by decide, by decide, by decide, by decide⟩, by decide, by decide, by decide⟩

/-- C15 (amended). When the validation returns the collection `C`, no stake of the
pool has both the content hash of `asset_ids` and the owner `owner`, the stored value
of the `"stake"` counter, if there is one, is below `2^64 - 1`, and no stake of the pool
has the `stake_id` that `consume_counter("stake")` returns, then `stake` succeeds: the
new pool is the old pool plus exactly one record, with that `stake_id`, the given
owner, `asset_ids` in the order submitted and the collection `C`; the stored value of
the `"stake"` counter becomes that `stake_id` plus one (one more than the value stored
before, `2` when there was no record); exactly one inline action
`lognewstake(stake_id, owner, asset_ids, C)` is sent; and nothing else changes. -/
theorem stake_succeeds (sha256 : List Nat → checksum256) (aa : atomicassets)
    (st : extractor) (owner : name) (asset_ids : List Nat) (C : name)
    (hv : get_collection_and_check_assets aa owner asset_ids = .ok C)
    (hnew : ∀ s ∈ st.pool, ¬ (s.asset_ids_hash sha256 = hash_asset_ids sha256 asset_ids ∧
      s.owner = owner))
    (hctr : ∀ v, counter_value st.counters stake_name = some v → v < 2 ^ 64 - 1)
    (hfree : table_find stake_s.stake_id (consume_counter st.counters stake_name).1 st.pool
      = none) :
    stake sha256 aa st owner asset_ids = .ok { st with
      counters := (consume_counter st.counters stake_name).2
      pool := st.pool ++
        [{ stake_id := (consume_counter st.counters stake_name).1, owner := owner,
           asset_ids := asset_ids, offer_id := none, collection_name := C }]
      sent := st.sent ++
        [.lognewstake (consume_counter st.counters stake_name).1 owner asset_ids C] } ∧
    counter_value (consume_counter st.counters stake_name).2 stake_name
      = some ((consume_counter st.counters stake_name).1 + 1) ∧
    (∀ v, counter_value st.counters stake_name = some v →
      (consume_counter st.counters stake_name).1 = v) ∧
    (counter_value st.counters stake_name = none →
      (consume_counter st.counters stake_name).1 = 1) := by
  have hscan : check_not_staked owner
      (stakes_by_hash sha256 (hash_asset_ids sha256 asset_ids) st.pool) = .ok () := by
    apply check_not_staked_of_forall
    intro s hs
    unfold stakes_by_hash at hs
    rw [List.mem_filter] at hs
    intro ho
    exact hnew s hs.1 ⟨by simpa using hs.2, ho⟩
  have hemplace := table_emplace_checked_of_free stake_s.stake_id st.pool
    { stake_id := (consume_counter st.counters stake_name).1, owner := owner,
      asset_ids := asset_ids, offer_id := none, collection_name := C } hfree
  refine ⟨?_, ?_, ?_, ?_⟩
  · simp only [stake, hv, hscan, hemplace]
  · cases hc : counter_value st.counters stake_name with
    | none =>
      obtain ⟨h1, h2⟩ := consume_counter_of_none st.counters stake_name hc
      rw [h2, h1]
    | some v =>
      obtain ⟨h1, h2⟩ := consume_counter_of_some st.counters stake_name v hc
      have hw : wrap_u64 (v + 1) = v + 1 := Nat.mod_eq_of_lt (by have := hctr v hc; omega)
      rw [h2, h1, hw]
  · intro v hc
    exact (consume_counter_of_some st.counters stake_name v hc).1
  · intro hc
    exact (consume_counter_of_none st.counters stake_name hc).1

/-- C15 (amended) at the state with the stake `1` of `alice` on `[5, 9]`: `alice`
stakes `[9]`. -/
theorem stake_succeeds_witness :
    stake numeral_digest registry_holding state_one_stake alice [9] = .ok
      { state_one_stake with
        counters := [{ counter_name := stake_name, counter_value := 3 }]
        pool := state_one_stake.pool ++
          [{ stake_id := 2, owner := alice, asset_ids := [9], offer_id := none,
             collection_name := heroes }]
        sent := state_one_stake.sent ++ [.lognewstake 2 alice [9] heroes] } :=
  (stake_succeeds numeral_digest registry_holding state_one_stake alice [9] heroes
    (by decide) (by decide)
    (by
      intro v hv
      obtain rfl : v = 2 := (Option.some.inj hv).symm
      norm_num)
    (by decide)).1

/-- C17. For every ledger, owner and quantity: with a negative amount
`internal_add_balance` fails with `NegativeAmount`; with a positive amount it
succeeds, and (a) when the owner has no row, a row holding exactly that quantity is
added; (b) when the owner's row has an entry for the symbol, that entry keeps its
position and its amount grows by exactly the credited amount, absent 64-bit overflow
of the sum; (c) otherwise the quantity is appended as the last entry of the row. All
other entries of the row and all other rows are unchanged. -/
theorem credit_effect (balances : List balances_s) (owner : name) (quantity : asset) :
    (quantity.amount < 0 →
      internal_add_balance balances owner quantity = .error .NegativeAmount) ∧
    (0 < quantity.amount →
      (∃ after, internal_add_balance balances owner quantity = .ok after) ∧
      (table_find balances_s.owner owner balances = none →
        internal_add_balance balances owner quantity =
          .ok (balances ++ [{ owner := owner, quantities := [quantity] }])) ∧
      (∀ row, table_find balances_s.owner owner balances = some row →
        ∃ t1 t2, balances = t1 ++ row :: t2 ∧ (∀ r ∈ t1, r.owner ≠ owner) ∧
          (entry_for row.quantities quantity.symbol = none →
            internal_add_balance balances owner quantity =
              .ok (t1 ++ { row with quantities := row.quantities ++ [quantity] } :: t2)) ∧
          (∀ e, entry_for row.quantities quantity.symbol = some e →
            -2 ^ 63 ≤ e.amount + quantity.amount → e.amount + quantity.amount < 2 ^ 63 →
            ∃ l1 l2, row.quantities = l1 ++ e :: l2 ∧
              (∀ x ∈ l1, x.symbol ≠ quantity.symbol) ∧
              internal_add_balance balances owner quantity =
                .ok (t1 ++ { row with quantities :=
                  l1 ++ { e with amount := e.amount + quantity.amount } :: l2 } :: t2)))) := by
  refine ⟨?_, ?_⟩
  · intro hneg
    have hq0 : quantity.amount ≠ 0 := by omega
    have hq1 : ¬ quantity.amount > 0 := by omega
    simp [internal_add_balance, hq0, hq1]
  · intro hpos
    obtain ⟨hnone, hsome⟩ := internal_add_balance_pos balances owner quantity hpos
    refine ⟨?_, hnone, ?_⟩
    · cases hfind : table_find balances_s.owner owner balances with
      | none => exact ⟨_, hnone hfind⟩
      | some row =>
        obtain ⟨t1, t2, -, -, happ, hupd⟩ := hsome row hfind
        cases hentry : entry_for row.quantities quantity.symbol with
        | none => exact ⟨_, happ hentry⟩
        | some e =>
          obtain ⟨l1, l2, -, -, hres⟩ := hupd e hentry
          exact ⟨_, hres⟩
    intro row hfind
    obtain ⟨t1, t2, e1, hne, happ, hupd⟩ := hsome row hfind
    refine ⟨t1, t2, e1, hne, happ, ?_⟩
    intro e hentry hlo hhi
    obtain ⟨l1, l2, e2, hl1, hres⟩ := hupd e hentry
    rw [wrap_i64_of_range _ hlo hhi] at hres
    exact ⟨l1, l2, e2, hl1, hres⟩

/-- C17 at `alice` with no row: the credit of `-1 TOK` fails and the credit of
`10 TOK` adds a row. -/
theorem credit_effect_witness :
    internal_add_balance [] alice { amount := -1, symbol := TOK } = .error .NegativeAmount ∧
    internal_add_balance [] alice { amount := 10, symbol := TOK }
      = .ok ([] ++ [{ owner := alice, quantities := [{ amount := 10, symbol := TOK }] }]) :=
  ⟨(credit_effect [] alice { amount := -1, symbol := TOK }).1 (by decide),
    ((credit_effect [] alice { amount := 10, symbol := TOK }).2 (by decide)).2.1 rfl⟩

/-- C18 as stated fails: `alice` has `2^63 - 1` of `TOK`, which is at least the
requested amount `-1`; the debit succeeds and leaves the amount `-2^63`, not the
amount reduced by exactly the requested amount, `2^63`: the `int64_t` subtraction
wraps. -/
theorem debit_negative_amount_wraps :
    table_find balances_s.owner alice
        [{ owner := alice, quantities := [{ amount := int64_max, symbol := TOK }] }]
      = some { owner := alice, quantities := [{ amount := int64_max, symbol := TOK }] } ∧
    entry_for [{ amount := int64_max, symbol := TOK }] TOK
      = some { amount := int64_max, symbol := TOK } ∧
    int64_max ≥ -1 ∧
    internal_decrease_balance
        [{ owner := alice, quantities := [{ amount := int64_max, symbol := TOK }] }] alice
        { amount := -1, symbol := TOK }
      = .ok [{ owner := alice,
               quantities := [{ amount := -9223372036854775808, symbol := TOK }] }] ∧
    (-9223372036854775808 : Int) ≠ int64_max - (-1) := by
  refine ⟨by decide, by decide, by decide, by decide, by decide⟩

/-- C18 (amended). For every ledger, owner and quantity, `internal_decrease_balance`
fails with `NoBalanceRow` when the owner has no row and with `SymbolNotFound` when the
row has no entry for the symbol; otherwise, when the entry's amount is at least the
requested amount and the 64-bit subtraction does not overflow, it succeeds: the
entry's amount is reduced by exactly the requested amount, the entry is removed when
it reaches zero, the whole row is removed when no entries remain, and every other
entry and every other row is unchanged. -/
theorem debit_effect (balances : List balances_s) (owner : name) (quantity : asset) :
    (table_find balances_s.owner owner balances = none →
      internal_decrease_balance balances owner quantity = .error .NoBalanceRow) ∧
    (∀ row, table_find balances_s.owner owner balances = some row →
      (entry_for row.quantities quantity.symbol = none →
        internal_decrease_balance balances owner quantity = .error .SymbolNotFound) ∧
      (∀ e, entry_for row.quantities quantity.symbol = some e →
        e.amount ≥ quantity.amount → e.amount - quantity.amount < 2 ^ 63 →
        ∃ t1 t2 l1 l2, balances = t1 ++ row :: t2 ∧ (∀ r ∈ t1, r.owner ≠ owner) ∧
          row.quantities = l1 ++ e :: l2 ∧ (∀ x ∈ l1, x.symbol ≠ quantity.symbol) ∧
          internal_decrease_balance balances owner quantity =
            .ok (if e.amount - quantity.amount = 0 then
                  (if l1 ++ l2 = [] then t1 ++ t2
                    else t1 ++ { row with quantities := l1 ++ l2 } :: t2)
                else t1 ++ { row with quantities :=
                  l1 ++ { e with amount := e.amount - quantity.amount } :: l2 } :: t2))) := by
  obtain ⟨hnone, hsome⟩ := internal_decrease_balance_cases balances owner quantity
  refine ⟨hnone, ?_⟩
  intro row hfind
  obtain ⟨hsym, hupd⟩ := hsome row hfind
  refine ⟨hsym, ?_⟩
  intro e hentry hge hhi
  obtain ⟨t1, t2, l1, l2, e1, hne, e2, hl1, hres⟩ := hupd e hentry hge
  rw [wrap_i64_of_range _ (by omega) hhi] at hres
  exact ⟨t1, t2, l1, l2, e1, hne, e2, hl1, hres⟩

/-- C18 at `alice` holding `50 TOK`: the debit of another symbol fails with
`SymbolNotFound`, and with no row at all the debit fails with `NoBalanceRow`. -/
theorem debit_effect_witness :
    internal_decrease_balance [] alice { amount := 10, symbol := TOK }
      = .error .NoBalanceRow ∧
    internal_decrease_balance state_with_balance.balances alice { amount := 10, symbol := 7 }
      = .error .SymbolNotFound :=
  ⟨(debit_effect [] alice { amount := 10, symbol := TOK }).1 rfl,
    ((debit_effect state_with_balance.balances alice { amount := 10, symbol := 7 }).2
      { owner := alice, quantities := [{ amount := 50, symbol := TOK }] } rfl).1 rfl⟩

/-- C19. `internal_withdraw_tokens` fails with `NonPositiveQuantity` when the amount is
not positive, and the state the chain keeps is then the old one. Whenever it succeeds,
the new ledger is `internal_decrease_balance(withdrawer, quantity)` of the old one and
the new state differs from the old one only by that ledger and by exactly one more
inline action: a transfer sent to the contract of the first allow-list entry for the
quantity's symbol, from the contract itself to the withdrawer, with that quantity and
memo. And it does succeed, with that state, whenever the amount is positive, the debit
succeeds and the allow-list has an entry for the symbol. -/
theorem withdraw_effect (self : name) (st : extractor) (withdrawer : name)
    (quantity : asset) (memo : String) :
    (quantity.amount ≤ 0 →
      internal_withdraw_tokens self st withdrawer quantity memo
          = .error .NonPositiveQuantity ∧
        commit st (internal_withdraw_tokens self st withdrawer quantity memo) = st) ∧
    (∀ after, internal_withdraw_tokens self st withdrawer quantity memo = .ok after →
      ∃ balances t,
        internal_decrease_balance st.balances withdrawer quantity = .ok balances ∧
        st.config.supported_tokens.find? (fun t => t.token_symbol = quantity.symbol)
          = some t ∧
        after = { st with
          balances := balances
          sent := st.sent ++
            [.transfer t.token_contract self withdrawer quantity memo] }) ∧
    (0 < quantity.amount → ∀ balances t,
      internal_decrease_balance st.balances withdrawer quantity = .ok balances →
      st.config.supported_tokens.find? (fun t => t.token_symbol = quantity.symbol)
        = some t →
      internal_withdraw_tokens self st withdrawer quantity memo = .ok { st with
        balances := balances
        sent := st.sent ++
          [.transfer t.token_contract self withdrawer quantity memo] }) := by
  refine ⟨?_, ?_, ?_⟩
  · intro hq
    have hq2 : ¬ quantity.amount > 0 := by omega
    have hfail : internal_withdraw_tokens self st withdrawer quantity memo
        = .error .NonPositiveQuantity := by
      simp [internal_withdraw_tokens, hq2]
    exact ⟨hfail, by rw [hfail]; rfl⟩
  · intro after h
    unfold internal_withdraw_tokens at h
    by_cases hq : quantity.amount > 0
    · simp only [hq, not_true_eq_false, if_false] at h
      cases hd : internal_decrease_balance st.balances withdrawer quantity with
      | error e => simp [hd] at h
      | ok b =>
        simp only [hd] at h
        cases hc : require_get_supported_token_contract st.config quantity.symbol with
        | error e => simp [hc] at h
        | ok c =>
          simp only [hc, Except.ok.injEq] at h
          obtain ⟨t, ht, htc⟩ := supported_token_contract_loop_ok quantity.symbol _ c hc
          exact ⟨b, t, rfl, ht, by rw [htc]; exact h.symm⟩
    · simp [hq] at h
  · intro hq balances t hd ht
    have hq2 : quantity.amount > 0 := hq
    have hc : require_get_supported_token_contract st.config quantity.symbol
        = .ok t.token_contract :=
      supported_token_contract_loop_of_find quantity.symbol _ t ht
    simp only [internal_withdraw_tokens, hq2, not_true_eq_false, if_false, hd, hc]

/-- C19 at `alice` holding `50 TOK`, with `TOK` of `eosio.token` supported: the
withdrawal of `10 TOK` succeeds, leaves `40 TOK` and sends one transfer of `10 TOK` from
the contract to `alice` through `eosio.token`; the withdrawal of `0 TOK` fails. -/
theorem withdraw_effect_witness :
    internal_withdraw_tokens extractor_account state_with_balance alice
        { amount := 10, symbol := TOK } "extractor Withdrawal"
      = .ok { state_with_balance with
          balances := [{ owner := alice, quantities := [{ amount := 40, symbol := TOK }] }]
          sent := state_with_balance.sent ++
            [.transfer eosio_token extractor_account alice { amount := 10, symbol := TOK }
              "extractor Withdrawal"] } ∧
    (internal_withdraw_tokens extractor_account state_with_balance alice
        { amount := 0, symbol := TOK } "extractor Withdrawal" = .error .NonPositiveQuantity ∧
      commit state_with_balance
        (internal_withdraw_tokens extractor_account state_with_balance alice
          { amount := 0, symbol := TOK } "extractor Withdrawal") = state_with_balance) :=
  ⟨(withdraw_effect extractor_account state_with_balance alice
      { amount := 10, symbol := TOK } "extractor Withdrawal").2.2 (by decide)
      [{ owner := alice, quantities := [{ amount := 40, symbol := TOK }] }]
      { token_contract := eosio_token, token_symbol := TOK } (by decide) (by decide),
    (withdraw_effect extractor_account state_with_balance alice
      { amount := 0, symbol := TOK } "extractor Withdrawal").1 (by decide)⟩

/-- C20 as stated fails: with the stored value `2^64 - 1` for `"stake"`,
`consume_counter` returns `2^64 - 1` and the stored value becomes `0`, which is not
greater than the value returned nor than the value stored before. -/
theorem consume_counter_wraps_to_zero :
    counter_value [{ counter_name := stake_name, counter_value := uint64_max }] stake_name
      = some uint64_max ∧
    (consume_counter [{ counter_name := stake_name, counter_value := uint64_max }]
      stake_name).1 = uint64_max ∧
    counter_value
      (consume_counter [{ counter_name := stake_name, counter_value := uint64_max }]
        stake_name).2 stake_name = some 0 ∧
    ¬ (uint64_max < 0) := by
  refine ⟨by decide, by decide, by decide, by decide⟩

/-- C20 (amended). Counter monotonicity: for every counter table and name whose stored
value, if there is one, is below `2^64 - 1`, after `consume_counter(name)` the stored
value for that name is strictly greater than the value returned and strictly greater
than the value stored before, and the stored values of all other names are
unchanged. -/
theorem consume_counter_monotone (counters : List counters_s) (nm : name)
    (hlt : ∀ v, counter_value counters nm = some v → v < 2 ^ 64 - 1) :
    ∃ stored, counter_value (consume_counter counters nm).2 nm = some stored ∧
      (consume_counter counters nm).1 < stored ∧
      (∀ v, counter_value counters nm = some v → v < stored) ∧
      ∀ other, other ≠ nm →
        counter_value (consume_counter counters nm).2 other = counter_value counters other := by
  cases hv : counter_value counters nm with
  | none =>
    obtain ⟨h1, h2⟩ := consume_counter_of_none counters nm hv
    refine ⟨2, h2, by rw [h1]; decide, ?_, fun other ho => consume_counter_other counters nm other ho⟩
    intro v h; cases h
  | some v =>
    obtain ⟨h1, h2⟩ := consume_counter_of_some counters nm v hv
    have hb := hlt v hv
    have hw : wrap_u64 (v + 1) = v + 1 := Nat.mod_eq_of_lt (by omega)
    rw [hw] at h2
    refine ⟨v + 1, h2, by rw [h1]; omega, ?_,
      fun other ho => consume_counter_other counters nm other ho⟩
    intro v2 h
    cases h
    omega

/-- C20 (amended) at the table in which `"stake"` has the stored value `2`. -/
theorem consume_counter_monotone_witness :
    ∃ stored, counter_value (consume_counter state_one_stake.counters stake_name).2 stake_name
        = some stored ∧
      (consume_counter state_one_stake.counters stake_name).1 < stored ∧
      (∀ v, counter_value state_one_stake.counters stake_name = some v → v < stored) ∧
      ∀ other, other ≠ stake_name →
        counter_value (consume_counter state_one_stake.counters stake_name).2 other
          = counter_value state_one_stake.counters other :=
  consume_counter_monotone state_one_stake.counters stake_name
    (by
      intro v hv
      obtain rfl : v = 2 := (Option.some.inj hv).symm
      norm_num)

/-! ## Facts for the sequence of stake ids -/

theorem lognewstake_ids_append (l1 l2 : List inline_action) :
    lognewstake_ids (l1 ++ l2) = lognewstake_ids l1 ++ lognewstake_ids l2 := by
  induction l1 with
  | nil => rfl
  | cons a rest ih =>
    cases a with
    | lognewstake i o ids c => simp [lognewstake_ids, ih]
    | transfer c s r q m => simp [lognewstake_ids, ih]

theorem stake_ok_eq (sha256 : List Nat → checksum256) (aa : atomicassets) (st after : extractor)
    (owner : name) (asset_ids : List Nat)
    (h : stake sha256 aa st owner asset_ids = .ok after) :
    ∃ C, after = { st with
      counters := (consume_counter st.counters stake_name).2
      pool := st.pool ++
        [{ stake_id := (consume_counter st.counters stake_name).1, owner := owner,
           asset_ids := asset_ids, offer_id := none, collection_name := C }]
      sent := st.sent ++
        [.lognewstake (consume_counter st.counters stake_name).1 owner asset_ids C] } := by
  unfold stake at h
  cases hv : get_collection_and_check_assets aa owner asset_ids with
  | error e => simp [hv] at h
  | ok c =>
    simp only [hv] at h
    cases hc : check_not_staked owner
        (stakes_by_hash sha256 (hash_asset_ids sha256 asset_ids) st.pool) with
    | error e => simp [hc] at h
    | ok u =>
      simp only [hc] at h
      cases he : table_emplace_checked stake_s.stake_id st.pool
          { stake_id := (consume_counter st.counters stake_name).1, owner := owner,
            asset_ids := asset_ids, offer_id := none, collection_name := c } with
      | error e => simp [he] at h
      | ok pool =>
        have hpool := table_emplace_checked_ok _ _ _ _ he
        simp only [he, Except.ok.injEq] at h
        subst hpool
        exact ⟨c, h.symm⟩

theorem stake_of_valid (sha256 : List Nat → checksum256) (aa : atomicassets) (st : extractor)
    (owner : name) (asset_ids : List Nat) (C : name)
    (hv : get_collection_and_check_assets aa owner asset_ids = .ok C)
    (hnew : ∀ s ∈ st.pool, s.owner ≠ owner)
    (hfree : ∀ s ∈ st.pool, s.stake_id ≠ (consume_counter st.counters stake_name).1) :
    stake sha256 aa st owner asset_ids = .ok { st with
      counters := (consume_counter st.counters stake_name).2
      pool := st.pool ++
        [{ stake_id := (consume_counter st.counters stake_name).1, owner := owner,
           asset_ids := asset_ids, offer_id := none, collection_name := C }]
      sent := st.sent ++
        [.lognewstake (consume_counter st.counters stake_name).1 owner asset_ids C] } := by
  have hscan : check_not_staked owner
      (stakes_by_hash sha256 (hash_asset_ids sha256 asset_ids) st.pool) = .ok () := by
    apply check_not_staked_of_forall
    intro s hs
    unfold stakes_by_hash at hs
    rw [List.mem_filter] at hs
    exact hnew s hs.1
  have hnone : table_find stake_s.stake_id (consume_counter st.counters stake_name).1 st.pool
      = none := by
    unfold table_find
    rw [List.find?_eq_none]
    intro s hs
    simpa using hfree s hs
  have hemplace := table_emplace_checked_of_free stake_s.stake_id st.pool
    { stake_id := (consume_counter st.counters stake_name).1, owner := owner,
      asset_ids := asset_ids, offer_id := none, collection_name := C } hnone
  simp only [stake, hv, hscan, hemplace]

theorem lognewstake_ids_length_le_step (sha256 : List Nat → checksum256) (st : extractor)
    (call : pool_call) :
    (lognewstake_ids st.sent).length ≤
      (lognewstake_ids (pool_step sha256 st call).sent).length := by
  cases call with
  | stake aa owner asset_ids =>
    simp only [pool_step]
    cases h : stake sha256 aa st owner asset_ids with
    | error e => exact le_refl _
    | ok after =>
      obtain ⟨C, rfl⟩ := stake_ok_eq sha256 aa st after owner asset_ids h
      simp [commit, lognewstake_ids_append, lognewstake_ids]
  | unstake aa stake_id =>
    simp only [pool_step]
    cases h : unstake aa st stake_id with
    | error e => exact le_refl _
    | ok after =>
      rw [unstake_ok_pool aa st after stake_id h]
      exact le_refl _

theorem stake_ids_inv_step (sha256 : List Nat → checksum256) (st : extractor)
    (call : pool_call) (hinv : stake_ids_inv st)
    (hb : (lognewstake_ids (pool_step sha256 st call).sent).length + 1 < 2 ^ 64) :
    stake_ids_inv (pool_step sha256 st call) := by
  cases call with
  | stake aa owner asset_ids =>
    simp only [pool_step] at hb ⊢
    cases h : stake sha256 aa st owner asset_ids with
    | error e => exact hinv
    | ok after =>
      obtain ⟨C, rfl⟩ := stake_ok_eq sha256 aa st after owner asset_ids h
      rw [h] at hb
      simp only [commit, lognewstake_ids_append, lognewstake_ids, List.length_append,
        List.length_singleton] at hb
      obtain ⟨h1, h2, h3⟩ := hinv
      -- the id allotted and the counter afterwards
      have hid : (consume_counter st.counters stake_name).1
            = (lognewstake_ids st.sent).length + 1 ∧
          counter_value (consume_counter st.counters stake_name).2 stake_name
            = some ((lognewstake_ids st.sent).length + 1 + 1) := by
        by_cases hn : (lognewstake_ids st.sent).length = 0
        · rw [if_pos hn] at h2
          obtain ⟨c1, c2⟩ := consume_counter_of_none st.counters stake_name h2
          rw [hn]
          exact ⟨c1, c2⟩
        · rw [if_neg hn] at h2
          obtain ⟨c1, c2⟩ := consume_counter_of_some st.counters stake_name _ h2
          have hw : wrap_u64 ((lognewstake_ids st.sent).length + 1 + 1)
              = (lognewstake_ids st.sent).length + 1 + 1 := Nat.mod_eq_of_lt (by omega)
          rw [hw] at c2
          exact ⟨c1, c2⟩
      obtain ⟨hid1, hid2⟩ := hid
      unfold stake_ids_inv
      simp only [commit, lognewstake_ids_append, lognewstake_ids, List.length_append,
        List.length_singleton, List.map_append, List.map_cons, List.map_nil]
      refine ⟨?_, ?_, ?_⟩
      · rw [hid1, List.range'_1_concat, Nat.add_comm 1]
        congr 1
      · rw [hid2]
        simp
      · exact List.Sublist.append h3 (List.Sublist.refl _)
  | unstake aa stake_id =>
    simp only [pool_step] at hb ⊢
    cases h : unstake aa st stake_id with
    | error e => exact hinv
    | ok after =>
      rw [unstake_ok_pool aa st after stake_id h]
      obtain ⟨h1, h2, h3⟩ := hinv
      refine ⟨h1, h2, ?_⟩
      exact List.Sublist.trans (List.Sublist.map _ (table_erase_sublist _ _ _)) h3

theorem stake_ids_inv_run (sha256 : List Nat → checksum256) :
    ∀ (calls : List pool_call) (st : extractor), stake_ids_inv st →
      (lognewstake_ids (pool_run sha256 st calls).sent).length + 1 < 2 ^ 64 →
      stake_ids_inv (pool_run sha256 st calls) := by
  intro calls
  induction calls with
  | nil => intro st h _; exact h
  | cons c rest ih =>
    intro st h hb
    have hmono : ∀ (l : List pool_call) (s : extractor),
        (lognewstake_ids s.sent).length ≤
          (lognewstake_ids (pool_run sha256 s l).sent).length := by
      intro l
      induction l with
      | nil => intro s; exact le_refl _
      | cons d more ihl =>
        intro s
        exact le_trans (lognewstake_ids_length_le_step sha256 s d)
          (ihl (pool_step sha256 s d))
    have hb1 : (lognewstake_ids (pool_step sha256 st c).sent).length + 1 < 2 ^ 64 := by
      have := hmono rest (pool_step sha256 st c)
      have hb2 : (lognewstake_ids (pool_run sha256 (pool_step sha256 st c) rest).sent).length
          + 1 < 2 ^ 64 := hb
      omega
    exact ih (pool_step sha256 st c) (stake_ids_inv_step sha256 st c h hb1) hb


theorem pool_run_append (sha256 : List Nat → checksum256) (st : extractor)
    (l1 l2 : List pool_call) :
    pool_run sha256 st (l1 ++ l2) = pool_run sha256 (pool_run sha256 st l1) l2 := by
  simp [pool_run, List.foldl_append]

theorem pool_run_stakes_by_everyone_succ (sha256 : List Nat → checksum256) (st : extractor)
    (n : Nat) :
    pool_run sha256 st (stakes_by_everyone (n + 1)) =
      pool_step sha256 (pool_run sha256 st (stakes_by_everyone n))
        (.stake registry_everyone n [1]) := by
  have hsplit : stakes_by_everyone (n + 1) =
      stakes_by_everyone n ++ [.stake registry_everyone n [1]] := by
    simp [stakes_by_everyone, List.range_succ]
  rw [hsplit, pool_run_append]
  rfl

theorem registry_everyone_valid (k : name) :
    get_collection_and_check_assets registry_everyone k [1] = .ok heroes := rfl

theorem pool_step_stake_by_everyone (sha256 : List Nat → checksum256) (st : extractor)
    (n : Nat) (hnew : ∀ s ∈ st.pool, s.owner < n)
    (hfree : ∀ s ∈ st.pool, s.stake_id ≠ (consume_counter st.counters stake_name).1) :
    pool_step sha256 st (.stake registry_everyone n [1]) = { st with
      counters := (consume_counter st.counters stake_name).2
      pool := st.pool ++
        [{ stake_id := (consume_counter st.counters stake_name).1, owner := n,
           asset_ids := [1], offer_id := none, collection_name := heroes }]
      sent := st.sent ++
        [.lognewstake (consume_counter st.counters stake_name).1 n [1] heroes] } := by
  have h := stake_of_valid sha256 registry_everyone st n [1] heroes
    (registry_everyone_valid n) (fun s hs => Nat.ne_of_lt (hnew s hs)) hfree
  simp only [pool_step, h, commit]

theorem stakes_by_everyone_state (sha256 : List Nat → checksum256) :
    ∀ (n : Nat), n + 1 < 2 ^ 64 →
      counter_value (pool_run sha256 fresh_state (stakes_by_everyone n)).counters stake_name =
          (if n = 0 then none else some (n + 1)) ∧
        (∀ s ∈ (pool_run sha256 fresh_state (stakes_by_everyone n)).pool, s.owner < n) ∧
        ∀ s ∈ (pool_run sha256 fresh_state (stakes_by_everyone n)).pool,
          s.stake_id < n + 1 := by
  intro n
  induction n with
  | zero =>
    intro _
    refine ⟨rfl, ?_, ?_⟩
    · intro s hs
      simp [stakes_by_everyone, pool_run, fresh_state] at hs
    · intro s hs
      simp [stakes_by_everyone, pool_run, fresh_state] at hs
  | succ n ih =>
    intro hb
    obtain ⟨hc, ho, hi⟩ := ih (by omega)
    have hid : (consume_counter
        (pool_run sha256 fresh_state (stakes_by_everyone n)).counters stake_name).1 = n + 1 ∧
        counter_value (consume_counter
          (pool_run sha256 fresh_state (stakes_by_everyone n)).counters stake_name).2
          stake_name = some (n + 1 + 1) := by
      by_cases hn : n = 0
      · rw [if_pos hn] at hc
        obtain ⟨c1, c2⟩ := consume_counter_of_none _ stake_name hc
        rw [c1, c2, hn]
        exact ⟨rfl, rfl⟩
      · rw [if_neg hn] at hc
        obtain ⟨c1, c2⟩ := consume_counter_of_some _ stake_name _ hc
        have hw : wrap_u64 (n + 1 + 1) = n + 1 + 1 := Nat.mod_eq_of_lt (by omega)
        rw [hw] at c2
        exact ⟨c1, c2⟩
    have hfree : ∀ s ∈ (pool_run sha256 fresh_state (stakes_by_everyone n)).pool,
        s.stake_id ≠ (consume_counter
          (pool_run sha256 fresh_state (stakes_by_everyone n)).counters stake_name).1 := by
      intro s hs
      rw [hid.1]
      exact Nat.ne_of_lt (hi s hs)
    rw [pool_run_stakes_by_everyone_succ,
      pool_step_stake_by_everyone sha256 _ n ho hfree]
    refine ⟨?_, ?_, ?_⟩
    · simp only [Nat.succ_ne_zero, if_false]
      exact hid.2
    · intro s hs
      simp only [List.mem_append, List.mem_singleton] at hs
      rcases hs with h | h
      · exact Nat.lt_succ_of_lt (ho s h)
      · rw [h]; exact Nat.lt_succ_self n
    · intro s hs
      simp only [List.mem_append, List.mem_singleton] at hs
      rcases hs with h | h
      · exact Nat.lt_succ_of_lt (hi s h)
      · rw [h]
        show (consume_counter
          (pool_run sha256 fresh_state (stakes_by_everyone n)).counters stake_name).1
            < n + 1 + 1
        rw [hid.1]
        exact Nat.lt_succ_self _

theorem stakes_by_everyone_last (sha256 : List Nat → checksum256) (n : Nat)
    (hb : n + 1 < 2 ^ 64) (hn : n ≠ 0) :
    counter_value (pool_run sha256 fresh_state (stakes_by_everyone (n + 1))).counters
        stake_name = some (wrap_u64 (n + 1 + 1)) ∧
      ∃ s ∈ (pool_run sha256 fresh_state (stakes_by_everyone (n + 1))).pool,
        s.stake_id = n + 1 := by
  obtain ⟨hc, ho, hi⟩ := stakes_by_everyone_state sha256 n hb
  rw [if_neg hn] at hc
  obtain ⟨c1, c2⟩ := consume_counter_of_some _ stake_name _ hc
  have hfree : ∀ s ∈ (pool_run sha256 fresh_state (stakes_by_everyone n)).pool,
      s.stake_id ≠ (consume_counter
        (pool_run sha256 fresh_state (stakes_by_everyone n)).counters stake_name).1 := by
    intro s hs
    rw [c1]
    exact Nat.ne_of_lt (hi s hs)
  rw [pool_run_stakes_by_everyone_succ, pool_step_stake_by_everyone sha256 _ n ho hfree]
  refine ⟨c2, ?_⟩
  exact ⟨_, List.mem_append_right _ (List.mem_singleton_self _), c1⟩

/-! ## Claims, concluded -/

/-- C21. For every state and `stake_id`: `unstake` fails with `NotFound` when no stake
with that id exists, and the state the chain keeps is then the old one; whenever
`unstake` succeeds, the new pool is the old pool with exactly the record of that
`stake_id` removed (the first record with the id, every other record unchanged and in
place), and the counters, the balance ledger, the configuration and the inline actions
sent are unchanged. -/
theorem unstake_effect (aa : atomicassets) (st : extractor) (stake_id : Nat) :
    (table_find stake_s.stake_id stake_id st.pool = none →
      unstake aa st stake_id = .error .NotFound ∧
        commit st (unstake aa st stake_id) = st) ∧
    (∀ after, unstake aa st stake_id = .ok after →
      (∃ row t1 t2, st.pool = t1 ++ row :: t2 ∧ row.stake_id = stake_id ∧
        (∀ r ∈ t1, r.stake_id ≠ stake_id) ∧ after.pool = t1 ++ t2) ∧
      after.counters = st.counters ∧ after.balances = st.balances ∧
      after.config = st.config ∧ after.sent = st.sent) := by
  refine ⟨?_, ?_⟩
  · intro hnone
    have hfail : unstake aa st stake_id = .error .NotFound := by
      simp [unstake, hnone]
    exact ⟨hfail, by rw [hfail]; rfl⟩
  · intro after h
    have hafter := unstake_ok_pool aa st after stake_id h
    cases hfind : table_find stake_s.stake_id stake_id st.pool with
    | none => simp [unstake, hfind] at h
    | some row =>
      obtain ⟨t1, t2, e1, hne, -, her⟩ :=
        table_find_split stake_s.stake_id stake_id st.pool row hfind
      have hkey : row.stake_id = stake_id := table_find_key _ _ _ _ hfind
      subst hafter
      exact ⟨⟨row, t1, t2, e1, hkey, hne, her⟩, rfl, rfl, rfl, rfl⟩

/-- C21 at the state with the stake `1` of `alice`: `unstake(7)` fails with `NotFound`. -/
theorem unstake_effect_witness :
    unstake registry_holding state_one_stake 7 = .error .NotFound ∧
      commit state_one_stake (unstake registry_holding state_one_stake 7) = state_one_stake :=
  (unstake_effect registry_holding state_one_stake 7).1 (by decide)

/-- C22 as stated fails: from the state with empty tables, after the `2^64 - 1`
successful calls `stake(k, [1])` of the accounts `k = 0, ..., 2^64 - 2` the pool holds a
stake with the id `2^64 - 1` while the stored value of the `"stake"` counter has wrapped
to `0`, so that id is not below the stored value. -/
theorem stake_id_not_below_wrapped_counter :
    fresh_state.pool = [] ∧ fresh_state.counters = [] ∧
    counter_value
      (pool_run numeral_digest fresh_state (stakes_by_everyone (2 ^ 64 - 1))).counters
      stake_name = some 0 ∧
    (∃ s ∈ (pool_run numeral_digest fresh_state (stakes_by_everyone (2 ^ 64 - 1))).pool,
      s.stake_id = 2 ^ 64 - 1) ∧
    ¬ (∀ s ∈ (pool_run numeral_digest fresh_state (stakes_by_everyone (2 ^ 64 - 1))).pool,
      ∃ v, counter_value
          (pool_run numeral_digest fresh_state (stakes_by_everyone (2 ^ 64 - 1))).counters
          stake_name = some v ∧ s.stake_id < v) := by
  have hN : (2 ^ 64 - 1 : Nat) = 2 ^ 64 - 2 + 1 := by norm_num
  obtain ⟨hc, s, hs, hid⟩ :=
    stakes_by_everyone_last numeral_digest (2 ^ 64 - 2) (by norm_num) (by norm_num)
  have hw : wrap_u64 (2 ^ 64 - 2 + 1 + 1) = 0 := by norm_num [wrap_u64]
  rw [hw] at hc
  rw [← hN] at hc hs hid
  refine ⟨rfl, rfl, hc, ⟨s, hs, hid⟩, ?_⟩
  intro hall
  obtain ⟨v, hv, hlt⟩ := hall s hs
  rw [hc] at hv
  cases hv
  omega

/-- C22 (amended). In every state reached from an initial state (empty pool, no record
of the `"stake"` counter, no inline action sent) by a sequence of `stake` and `unstake`
calls in which at most `2^64 - 2` stakes succeeded: the ids of the stakes in the pool
are pairwise distinct, each is at least `1` and strictly less than the stored value of
the `"stake"` counter, and the ids allotted by the successive successful stakes are
`1, 2, 3, ...` without gaps; a stake that fails leaves the state, the counter included,
as it was. -/
theorem stake_ids_are_sequential (sha256 : List Nat → checksum256) (st : extractor)
    (calls : List pool_call) (hpool : st.pool = [])
    (hctr : counter_value st.counters stake_name = none) (hsent : st.sent = [])
    (hb : (lognewstake_ids (pool_run sha256 st calls).sent).length < 2 ^ 64 - 1) :
    ((pool_run sha256 st calls).pool.map stake_s.stake_id).Nodup ∧
    (∀ s ∈ (pool_run sha256 st calls).pool, 1 ≤ s.stake_id ∧
      ∃ v, counter_value (pool_run sha256 st calls).counters stake_name = some v ∧
        s.stake_id < v) ∧
    lognewstake_ids (pool_run sha256 st calls).sent =
      List.range' 1 (lognewstake_ids (pool_run sha256 st calls).sent).length ∧
    (∀ (before : extractor) (aa : atomicassets) (owner : name) (asset_ids : List Nat) (e : Err),
      stake sha256 aa before owner asset_ids = .error e →
      pool_step sha256 before (.stake aa owner asset_ids) = before) := by
  have h0 : stake_ids_inv st := by
    unfold stake_ids_inv
    rw [hpool, hsent]
    exact ⟨rfl, by simpa [lognewstake_ids] using hctr, List.Sublist.refl _⟩
  obtain ⟨h1, h2, h3⟩ := stake_ids_inv_run sha256 calls st h0 (by omega)
  refine ⟨?_, ?_, h1, ?_⟩
  · refine List.Nodup.sublist h3 ?_
    rw [h1]
    exact List.nodup_range' 1 _
  · intro s hs
    have hmem : s.stake_id ∈ lognewstake_ids (pool_run sha256 st calls).sent :=
      h3.subset (List.mem_map_of_mem _ hs)
    rw [h1, List.mem_range'_1] at hmem
    have hne : (lognewstake_ids (pool_run sha256 st calls).sent).length ≠ 0 := by omega
    rw [if_neg hne] at h2
    exact ⟨hmem.1, _, h2, by omega⟩
  · intro before aa owner asset_ids e he
    simp only [pool_step, he, commit]

/-- C22 (amended) on a run from the state with empty tables: `alice` stakes `[5, 9]`,
stakes `[9, 5]` (refused), stakes `[9]`, and stake `1` is unstaked. -/
theorem stake_ids_are_sequential_witness :
    lognewstake_ids
        (pool_run numeral_digest fresh_state
          [.stake registry_holding alice [5, 9], .stake registry_holding alice [9, 5],
           .stake registry_holding alice [9], .unstake registry_holding 1]).sent =
      List.range' 1 (lognewstake_ids
        (pool_run numeral_digest fresh_state
          [.stake registry_holding alice [5, 9], .stake registry_holding alice [9, 5],
           .stake registry_holding alice [9], .unstake registry_holding 1]).sent).length :=
  (stake_ids_are_sequential numeral_digest fresh_state
    [.stake registry_holding alice [5, 9], .stake registry_holding alice [9, 5],
     .stake registry_holding alice [9], .unstake registry_holding 1] rfl rfl rfl
    (by decide)).2.2.1

/-- C23. For every transfer notification whose recipient `to` is not the contract
itself, `receive_token_transfer` returns without failing and leaves the whole state,
the ledger included, unchanged, whatever the token contract, the sender, the quantity
and the memo are. -/
theorem receive_token_transfer_to_other (self first_receiver : name) (st : extractor)
    (from_ to_ : name) (quantity : asset) (memo : String) (hto : to_ ≠ self) :
    receive_token_transfer self first_receiver st from_ to_ quantity memo = .ok st ∧
      (commit st (receive_token_transfer self first_receiver st from_ to_ quantity memo)).balances
        = st.balances := by
  have hok : receive_token_transfer self first_receiver st from_ to_ quantity memo = .ok st := by
    simp [receive_token_transfer, hto]
  exact ⟨hok, by rw [hok]; rfl⟩

/-- C23 at a notification of a transfer from `alice` to `eosio.token` of `-5` of an
unsupported symbol with the memo `"stake"`. -/
theorem receive_token_transfer_to_other_witness :
    receive_token_transfer extractor_account alice state_with_balance alice eosio_token
        { amount := -5, symbol := 3 } "stake" = .ok state_with_balance ∧
      (commit state_with_balance
        (receive_token_transfer extractor_account alice state_with_balance alice eosio_token
          { amount := -5, symbol := 3 } "stake")).balances = state_with_balance.balances :=
  receive_token_transfer_to_other extractor_account alice state_with_balance alice eosio_token
    { amount := -5, symbol := 3 } "stake" (by decide)

end StakePool
